import Mathlib

/-!
Verification development for `cleanup.py` (MusicLibraryCleanup): a shallow
embedding of the canonicalization and deduplication engine, together with
theorems settling the frozen behavioural claims.

Modelling conventions:
* Python strings are Lean `String`s, manipulated through their `List Char`
  data; character classes (`\w`, `\s`) and `str.lower` are modelled over
  ASCII, matching the behaviour of the source on the inputs of interest.
* Python dicts (insertion-ordered) are association lists; `d[k] = v` keeps
  the position of an existing key and appends a fresh one, `.values()` is
  the list of second components in insertion order.
* Filesystem traversal, tag parsing and hashing are external I/O; a file is
  modelled as its path together with the outcome of tag extraction and of
  `get_file_hash` (digest or raised error message).
* `fuzz.ratio` is modelled through the longest-common-subsequence identity
  `ratio = round(100 * (lensum - dist) / lensum)` with `dist` the edit
  distance under substitution cost 2, i.e. `round(200 * lcs / lensum)`.
-/

namespace MusicCleanup

/-! ### Character classes: Python `str.lower`, `re` classes `\w` and `\s` (ASCII) -/

/-- Model of `str.lower` on one character (ASCII case folding). -/
def pyLower (c : Char) : Char :=
  if 'A' ≤ c && c ≤ 'Z' then Char.ofNat (c.toNat + 32) else c

/-- Model of the `re` class `\w` (ASCII): alphanumeric or underscore. -/
def isWordChar (c : Char) : Bool := c.isAlphanum || c == '_'

/-- Model of the `re` class `\s`: the six ASCII whitespace characters. -/
def isWsChar (c : Char) : Bool :=
  c == ' ' || c == '\t' || c == '\n' || c == '\r' || c == '\x0b' || c == '\x0c'

/-! ### `normalize_string` (cleanup.py lines 13-15) -/

/-- `normalize_string`: lowercase, then drop every character matching
`[^\w\s]` (model of `re.sub(r'[^\w\s]', '', s.lower())`). -/
def normalize_string (s : String) : String :=
  ⟨(s.data.map pyLower).filter (fun c => isWordChar c || isWsChar c)⟩

/-! ### `fuzz.ratio` model: longest common subsequence -/

/-- One row of the LCS dynamic program: given the previous row (values for
the shorter prefix of the first string) produce the next row's tail.
`prev` walks along with the columns; `cur` is the value just computed to the
left (the row starts at 0). -/
def lcsRowAux (c : Char) : List Char → List Nat → Nat → List Nat
  | [], _, _ => []
  | b :: bs, prev, cur =>
    let diag := prev.headD 0
    let up := prev.tail.headD 0
    let v := if c == b then diag + 1 else max cur up
    v :: lcsRowAux c bs prev.tail v

/-- Length of a longest common subsequence of two character lists, by
row-by-row dynamic programming. -/
def lcs (as bs : List Char) : Nat :=
  let final := as.foldl (fun prev c => 0 :: lcsRowAux c bs prev 0)
    (List.replicate (bs.length + 1) 0)
  final.getLastD 0

/-- Model of `fuzz.ratio(a, b)`: `round(100 * (lensum - dist) / lensum)`
where `dist` is the edit distance with substitution cost 2, which equals
`lensum - 2 * lcs`; hence `round(200 * lcs / lensum)`.  Both strings are
compared as given (`fuzz.ratio` itself does no preprocessing). -/
def fuzzScore (a b : String) : Nat :=
  let lensum := a.length + b.length
  if lensum = 0 then 100
  else (200 * lcs a.data b.data + lensum / 2) / lensum

/-! ### `find_similar_name` (cleanup.py lines 17-30) -/

/-- The loop of `find_similar_name`: fold over the existing names carrying
`(highest_ratio, best_match)`; an element replaces the current best only
when its score is strictly greater and at least the threshold. -/
def fsnGo (nn : String) (threshold : Nat) :
    List String → Nat → Option String → Nat × Option String
  | [], highest, best => (highest, best)
  | e :: rest, highest, best =>
    let r := fuzzScore nn (normalize_string e)
    if r > highest ∧ r ≥ threshold then fsnGo nn threshold rest r (some e)
    else fsnGo nn threshold rest highest best

/-- `find_similar_name`: most similar existing name above the threshold, or
`none`; ties keep the earliest name (strict improvement required). -/
def find_similar_name (name : String) (existing : List String)
    (threshold : Nat) : Option String :=
  (fsnGo (normalize_string name) threshold existing 0 none).2

/-! ### Regex machinery for the featuring patterns of `normalize_artist_name`

Every featuring pattern has the shape `token.*$` for a short token.  In
Python `.` does not match a newline and (without `re.MULTILINE`) `$` matches
at the end of the string or just before a final newline, so `token.*$`
matches at a position exactly when the token matches there and the remainder
after the token, minus an optional single trailing newline, is
newline-free; the substitution then deletes from the token to the end,
leaving that optional final newline.  `re.sub` scans left to right, so the
first such position wins (and no second match can start in the leftovers,
since every token needs at least two characters). -/

/-- Is `'\n'` absent from the list? -/
def nlFree (l : List Char) : Bool := !l.contains '\n'

/-- Can `.*$` succeed on remainder `r` (which extends to the end of the
string)?  If so, return what the substitution leaves behind after the match
(`[]`, or the final newline that `$` stopped in front of). -/
def dollarStop (r : List Char) : Option (List Char) :=
  if nlFree r then some []
  else if r.getLast? = some '\n' && nlFree r.dropLast then some ['\n']
  else none

/-- `re.sub(token ++ ".*$", '', s)`: delete from the first position where
the token matches and `.*$` can reach the end of the string. -/
def subToEnd (tok : List Char → Option (List Char)) : List Char → List Char
  | [] => []
  | c :: cs =>
    match tok (c :: cs) with
    | some r =>
      match dollarStop r with
      | some left => left
      | none => c :: subToEnd tok cs
    | none => c :: subToEnd tok cs

/-- Token of `r',.*$'`. -/
def tokComma : List Char → Option (List Char)
  | ',' :: r => some r
  | _ => none

/-- Token of `r'\sfeat\..*$'`. -/
def tokFeat : List Char → Option (List Char)
  | c :: 'f' :: 'e' :: 'a' :: 't' :: '.' :: r =>
    if isWsChar c then some r else none
  | _ => none

/-- Token of `r'\sft\..*$'`. -/
def tokFt : List Char → Option (List Char)
  | c :: 'f' :: 't' :: '.' :: r => if isWsChar c then some r else none
  | _ => none

/-- Token of `r'\swith\s.*$'`. -/
def tokWith : List Char → Option (List Char)
  | c :: 'w' :: 'i' :: 't' :: 'h' :: d :: r =>
    if isWsChar c && isWsChar d then some r else none
  | _ => none

/-- Token of `r'\sx\s.*$'`. -/
def tokX : List Char → Option (List Char)
  | c :: 'x' :: d :: r => if isWsChar c && isWsChar d then some r else none
  | _ => none

/-- Token of `r'\svs\.?\s.*$'` (the optional dot is tried greedily; when it
is present the dotless alternative cannot match either, since the character
after `s` is then the dot). -/
def tokVs : List Char → Option (List Char)
  | c :: 'v' :: 's' :: '.' :: d :: r =>
    if isWsChar c && isWsChar d then some r
    else none
  | c :: 'v' :: 's' :: d :: r => if isWsChar c && isWsChar d then some r else none
  | _ => none

/-- Token of `r'\s&\s(?!the\s).*$'`: whitespace, ampersand, whitespace, and
the negative lookahead `the\s` must fail at the remainder. -/
def tokAmp : List Char → Option (List Char)
  | c :: '&' :: d :: r =>
    if isWsChar c && isWsChar d then
      match r with
      | 't' :: 'h' :: 'e' :: e :: _ => if isWsChar e then none else some r
      | _ => some r
    else none
  | _ => none

/-! ### The cleanup passes of `normalize_artist_name` -/

/-- The loop of the whitespace-collapsing pass: the flag records whether we
are inside a whitespace run whose single replacement space has already been
emitted. -/
def collapseGo : Bool → List Char → List Char
  | _, [] => []
  | inRun, c :: cs =>
    if isWsChar c then
      if inRun then collapseGo true cs else ' ' :: collapseGo true cs
    else c :: collapseGo false cs

/-- Model of `re.sub(r'\s+', ' ', s)`: every maximal whitespace run becomes
a single space. -/
def collapseWs (l : List Char) : List Char := collapseGo false l

/-- Does the 9-character pattern `\sand\sthe\s` match at the head? -/
def andTheAt : List Char → Bool
  | c1 :: 'a' :: 'n' :: 'd' :: c2 :: 't' :: 'h' :: 'e' :: c3 :: _ =>
    isWsChar c1 && isWsChar c2 && isWsChar c3
  | _ => false

/-- The replacement loop, made structural with a step budget: each step
either emits one character or consumes a whole 9-character match. -/
def rewriteGo : Nat → List Char → List Char
  | 0, l => l
  | _ + 1, [] => []
  | fuel + 1, c :: cs =>
    if andTheAt (c :: cs) then
      ' ' :: '&' :: ' ' :: 't' :: 'h' :: 'e' :: ' ' :: rewriteGo fuel (cs.drop 8)
    else c :: rewriteGo fuel cs

/-- Model of `re.sub(r'\sand\sthe\s', ' & the ', s)`: non-overlapping
left-to-right replacement, resuming after each match (a budget of one step
per character is always enough). -/
def rewriteAndThe (l : List Char) : List Char := rewriteGo l.length l

/-- Model of `str.strip()`: drop whitespace from both ends. -/
def trimWs (l : List Char) : List Char :=
  ((l.dropWhile isWsChar).reverse.dropWhile isWsChar).reverse

/-- `normalize_artist_name` (cleanup.py lines 32-68): lowercase, strip the
first matching featuring clause of each pattern in order, remove characters
outside `\w`, `\s`, `&`, collapse whitespace runs, rewrite `' and the '` to
`' & the '`, and trim. -/
def normalize_artist_name (artist : String) : String :=
  let name := artist.data.map pyLower
  let name := subToEnd tokComma name
  let name := subToEnd tokFeat name
  let name := subToEnd tokFt name
  let name := subToEnd tokWith name
  let name := subToEnd tokX name
  let name := subToEnd tokVs name
  let name := subToEnd tokAmp name
  let name := name.filter (fun c => isWordChar c || isWsChar c || c == '&')
  let name := collapseWs name
  let name := rewriteAndThe name
  let name := trimWs name
  ⟨name⟩

/-! ### `sanitize_filename` (cleanup.py lines 117-124) -/

/-- Is the character one of the invalid filename characters `<>:"/\|?*`? -/
def isInvalidFileChar (c : Char) : Bool :=
  c == '<' || c == '>' || c == ':' || c == '"' || c == '/' || c == '\\' ||
  c == '|' || c == '?' || c == '*'

/-- Is the character stripped by `strip('. ')`? -/
def isDotOrSpace (c : Char) : Bool := c == '.' || c == ' '

/-- `sanitize_filename`: remove the invalid filename characters entirely,
then strip leading and trailing dots and spaces. -/
def sanitize_filename (filename : String) : String :=
  let l := filename.data.filter (fun c => !isInvalidFileChar c)
  ⟨((l.dropWhile isDotOrSpace).reverse.dropWhile isDotOrSpace).reverse⟩

/-! ### Track numbers: `split('/')[0].zfill(2)` -/

/-- `s.split('/')[0]`: everything before the first slash. -/
def beforeSlash (s : String) : String := ⟨s.data.takeWhile (· ≠ '/')⟩

/-- Model of `str.zfill`: left-pad with zeros to the given width, keeping a
leading sign in place.  Note `''.zfill(2) = '00'`. -/
def zfill (width : Nat) (s : String) : String :=
  if width ≤ s.length then s
  else
    match s.data with
    | c :: rest =>
      if c = '+' ∨ c = '-' then
        ⟨c :: (List.replicate (width - s.length) '0' ++ rest)⟩
      else ⟨List.replicate (width - s.length) '0' ++ s.data⟩
    | [] => ⟨List.replicate width '0'⟩

/-! ### Metadata extraction (cleanup.py lines 126-161)

Tag parsing is external I/O (mutagen).  A file's parse outcome is modelled
as `Option FileTags`: `none` when the file has no parseable tags or parsing
raised (the source catches every exception and returns `None`), otherwise
the four tag values, each `Option String` since the source distinguishes a
*missing key* (`'title' not in audio`) from a present-but-empty value. -/

/-- Raw tag values of one audio file, as the mutagen collaborators expose
them; `none` marks an absent key. -/
structure FileTags where
  title : Option String
  artist : Option String
  album : Option String
  tracknumber : Option String
deriving Repr, DecidableEq

/-- The metadata record built by `get_audio_metadata`. -/
structure Metadata where
  artist : String
  album : String
  title : String
  tracknumber : String
deriving Repr, DecidableEq

/-- `get_audio_metadata`: `none` when the tags are unreadable or the title
or artist *key* is missing; otherwise artist/album/title default to `''`
and the track number is `tracknumber.split('/')[0].zfill(2)` (both source
branches perform the same computation on string-valued tags). -/
def get_audio_metadata (tags : Option FileTags) : Option Metadata :=
  match tags with
  | none => none
  | some t =>
    match t.title, t.artist with
    | some title, some artist =>
      some { artist := artist
             album := t.album.getD ""
             title := title
             tracknumber := zfill 2 (beforeSlash (t.tracknumber.getD "")) }
    | _, _ => none

/-! ### Filename generation (cleanup.py lines 163-178) -/

/-- Model of `os.path.splitext(p)[1]`: the extension of the basename, empty
when the basename has no dot or only leading dots. -/
def splitextExt (p : String) : String :=
  let base := (p.data.reverse.takeWhile (· ≠ '/')).reverse
  let core := base.dropWhile (· = '.')
  let extRev := core.reverse.takeWhile (· ≠ '.')
  if extRev.length = core.length then ""
  else ⟨'.' :: extRev.reverse⟩

/-- `generate_new_filename`: `"{track} - {title}{ext}"` when the record's
track number is non-empty (Python truthiness), else `"{title}{ext}"`; the
title is sanitized and the extension comes lowercased from the original
path. -/
def generate_new_filename (metadata : Metadata) (original_path : String) :
    String :=
  let ext := ⟨(splitextExt original_path).data.map pyLower⟩
  let title := sanitize_filename metadata.title
  if metadata.tracknumber ≠ "" then
    metadata.tracknumber ++ " - " ++ title ++ ext
  else title ++ ext

/-! ### Insertion-ordered dictionaries as association lists -/

/-- First-match lookup, `k in d` / `d[k]`. -/
def alLookup {α : Type} : List (String × α) → String → Option α
  | [], _ => none
  | (k', v) :: rest, k => if k' = k then some v else alLookup rest k

/-- `d[k] = v`: replace in place when the key exists, else append (Python
dicts preserve insertion order). -/
def alUpdate {α : Type} : List (String × α) → String → α → List (String × α)
  | [], k, v => [(k, v)]
  | (k', v') :: rest, k, v =>
    if k' = k then (k, v) :: rest else (k', v') :: alUpdate rest k v

/-- `d[k].append(x)` on a `defaultdict(list)`. -/
def mdAppend {α : Type} (d : List (String × List α)) (k : String) (x : α) :
    List (String × List α) :=
  match alLookup d k with
  | some xs => alUpdate d k (xs ++ [x])
  | none => d ++ [(k, [x])]

/-! ### `DirectoryManager` (cleanup.py lines 70-107) -/

/-- The registry state: normalized artist key → canonical artist,
canonical artist → (normalized album key → canonical album), and the
`canonical_cases` capitalization store. -/
structure DirectoryManager where
  artist_mappings : List (String × String)
  album_mappings : List (String × List (String × String))
  canonical_cases : List (String × String)
deriving Repr, DecidableEq

/-- The empty registry built by `DirectoryManager.__init__`. -/
def DirectoryManager.init : DirectoryManager := ⟨[], [], []⟩

/-- `get_canonical_artist`: exact normalized-key hits return the stored
mapping unchanged; otherwise the raw spelling is stored as canonical (the
longer-spelling branch of the source is kept faithfully, guarded by the key
being absent from `artist_mappings` yet present in `canonical_cases`). -/
def get_canonical_artist (dm : DirectoryManager) (artist : String) :
    String × DirectoryManager :=
  let normalized := normalize_artist_name artist
  match alLookup dm.artist_mappings normalized with
  | some c => (c, dm)
  | none =>
    match alLookup dm.canonical_cases normalized with
    | none =>
      let dm' := { dm with
        canonical_cases := alUpdate dm.canonical_cases normalized artist
        artist_mappings := alUpdate dm.artist_mappings normalized artist }
      (artist, dm')
    | some stored =>
      if stored.length < artist.length then
        let dm' := { dm with
          canonical_cases := alUpdate dm.canonical_cases normalized artist
          artist_mappings := alUpdate dm.artist_mappings normalized artist }
        (artist, dm')
      else (stored, dm)

/-- The album sub-dictionary for a canonical artist
(`self.album_mappings[canonical_artist]`; the `defaultdict` default is the
empty dict). -/
def albumsFor (dm : DirectoryManager) (canonical_artist : String) :
    List (String × String) :=
  (alLookup dm.album_mappings canonical_artist).getD []

/-- `get_canonical_album`: resolve the artist, then exact normalized-key
hit, then `find_similar_name` over the registered canonical album names
(threshold 85, registering the key as an alias of a hit), else register the
raw album as a new canonical name. -/
def get_canonical_album (dm : DirectoryManager) (artist album : String) :
    String × DirectoryManager :=
  let r := get_canonical_artist dm artist
  let canonical_artist := r.1
  let dm1 := r.2
  let normalized_album := normalize_string album
  let albums := albumsFor dm1 canonical_artist
  match alLookup albums normalized_album with
  | some c => (c, dm1)
  | none =>
    match find_similar_name album (albums.map Prod.snd) 85 with
    | some similar =>
      let am := alUpdate dm1.album_mappings canonical_artist
        (alUpdate albums normalized_album similar)
      (similar, { dm1 with album_mappings := am })
    | none =>
      let am := alUpdate dm1.album_mappings canonical_artist
        (alUpdate albums normalized_album album)
      (album, { dm1 with album_mappings := am })

/-! ### `analyze_music_directory` (cleanup.py lines 235-313)

Directory walking, tag parsing and hashing are I/O; one discovered music
file is modelled as its full path, the outcome of tag extraction, and the
outcome of `get_file_hash` (lines 109-115): either the hex digest or the
message of the raised exception (an unreadable file), which the `except`
clause of the per-file loop converts into a skip record. -/

/-- Outcome of `get_file_hash` on one file. -/
inductive HashResult where
  | ok (digest : String)
  | err (msg : String)
deriving Repr, DecidableEq

/-- One discovered music file, as seen by the per-file loop. -/
structure FileInput where
  path : String
  tags : Option FileTags
  hash : HashResult
deriving Repr, DecidableEq

/-- A `skipped_files` entry. -/
structure SkipRecord where
  path : String
  reason : String
deriving Repr, DecidableEq

/-- A `proposed_moves` entry. -/
structure MoveEntry where
  original_path : String
  current_filename : String
  new_filename : String
  metadata : Metadata
deriving Repr, DecidableEq

/-- The accumulated state of one analysis pass. -/
structure AnalysisState where
  proposed_moves : List (String × List MoveEntry)
  unique_files : List (String × String)
  duplicates : List (String × List String)
  skipped_files : List SkipRecord
  dm : DirectoryManager
deriving Repr, DecidableEq

/-- The state at the start of the pass. -/
def initState : AnalysisState := ⟨[], [], [], [], DirectoryManager.init⟩

/-- `os.path.basename` (posix): the part after the last slash. -/
def basename (p : String) : String :=
  ⟨(p.data.reverse.takeWhile (· ≠ '/')).reverse⟩

/-- `os.path.join` of three relative components (posix). -/
def joinPath3 (a b c : String) : String := a ++ "/" ++ b ++ "/" ++ c

/-- The body of the per-file loop of `analyze_music_directory`: skip on
missing metadata, resolve canonical names (mutating the registry), build
the `MusicFile` (whose hashing may raise, caught as a skip record), then
either record a duplicate or append to the move plan. -/
def process_file (root_dir : String) (st : AnalysisState) (f : FileInput) :
    AnalysisState :=
  match get_audio_metadata f.tags with
  | none =>
    { st with skipped_files := st.skipped_files ++
        [⟨f.path, "Missing required metadata (title/artist)"⟩] }
  | some metadata =>
    let ra := get_canonical_artist st.dm metadata.artist
    let canonical_artist := ra.1
    let rb := get_canonical_album ra.2 canonical_artist metadata.album
    let canonical_album := rb.1
    let dm2 := rb.2
    let md' := { metadata with artist := canonical_artist,
                               album := canonical_album }
    match f.hash with
    | .err e =>
      { st with dm := dm2, skipped_files := st.skipped_files ++
          [⟨f.path, "Error processing file: " ++ e⟩] }
    | .ok h =>
      let new_filename := generate_new_filename metadata f.path
      if (alLookup st.unique_files h).isSome then
        { st with dm := dm2, duplicates := mdAppend st.duplicates h f.path }
      else
        let new_path := joinPath3 root_dir (sanitize_filename canonical_artist)
          (sanitize_filename canonical_album)
        { st with dm := dm2
                  unique_files := alUpdate st.unique_files h f.path
                  proposed_moves := mdAppend st.proposed_moves new_path
                    ⟨f.path, basename f.path, new_filename, md'⟩ }

/-- `analyze_music_directory` as a fold of the per-file loop over the
discovered files (in traversal order). -/
def analyze_music_directory (root_dir : String) (files : List FileInput) :
    AnalysisState :=
  files.foldl (process_file root_dir) initState

/-! ### Abstractions of one file's fate, used to state the claims -/

/-- The metadata the pass extracts for a file. -/
def fileMetadata (f : FileInput) : Option Metadata := get_audio_metadata f.tags

/-- The digest the pass observes for a file: present exactly when metadata
extraction succeeded and hashing did not raise. -/
def fileDigest (f : FileInput) : Option String :=
  match get_audio_metadata f.tags, f.hash with
  | some _, .ok h => some h
  | _, _ => none

/-- The skip record the per-file loop produces for a file, if any. -/
def skipRecOf (f : FileInput) : Option SkipRecord :=
  match get_audio_metadata f.tags with
  | none => some ⟨f.path, "Missing required metadata (title/artist)"⟩
  | some _ =>
    match f.hash with
    | .err e => some ⟨f.path, "Error processing file: " ++ e⟩
    | .ok _ => none

/-- All original paths in a move table, in per-directory order. -/
def movesPaths (mv : List (String × List MoveEntry)) : List String :=
  (mv.map (fun p => p.2.map (·.original_path))).flatten

/-- All original paths occurring in the move plan. -/
def movePlanPaths (st : AnalysisState) : List String :=
  movesPaths st.proposed_moves

/-- The duplicate group stored for a digest (empty when absent). -/
def dupGroup (st : AnalysisState) (d : String) : List String :=
  (alLookup st.duplicates d).getD []

/-! ## Association-list lemmas -/

theorem alLookup_alUpdate_self {α : Type} (l : List (String × α)) (k : String)
    (v : α) : alLookup (alUpdate l k v) k = some v := by
  induction l with
  | nil => simp [alLookup, alUpdate]
  | cons p rest ih =>
    obtain ⟨k1, v1⟩ := p
    by_cases h : k1 = k
    · simp [alLookup, alUpdate, h]
    · simp [alLookup, alUpdate, h, ih]

theorem alLookup_alUpdate_ne {α : Type} (l : List (String × α)) (k k' : String)
    (v : α) (h : k' ≠ k) : alLookup (alUpdate l k v) k' = alLookup l k' := by
  have hkk : ¬ k = k' := fun h' => h h'.symm
  induction l with
  | nil => simp [alLookup, alUpdate, hkk]
  | cons p rest ih =>
    obtain ⟨k1, v1⟩ := p
    by_cases hp : k1 = k
    · subst hp
      simp [alLookup, alUpdate, hkk]
    · by_cases hp' : k1 = k'
      · simp [alLookup, alUpdate, hp, hp', h]
      · simp [alLookup, alUpdate, hp, hp', ih]

/-! ## The artist registry: exact-key hits, write-once mapping -/

/-- Invariant of every reachable registry: `artist_mappings` and
`canonical_cases` are always written together, so they agree as lookup
tables (this is what makes the longer-spelling branch of
`get_canonical_artist` unreachable). -/
def RegistryWF (dm : DirectoryManager) : Prop :=
  ∀ k, alLookup dm.artist_mappings k = alLookup dm.canonical_cases k

theorem registryWF_init : RegistryWF DirectoryManager.init := fun _ => rfl

/-- Equation: an exact normalized-key hit returns the stored canonical form
and leaves the registry untouched. -/
theorem get_canonical_artist_hit (dm : DirectoryManager) (a c : String)
    (h : alLookup dm.artist_mappings (normalize_artist_name a) = some c) :
    get_canonical_artist dm a = (c, dm) := by
  simp only [get_canonical_artist, h]

/-- Equation: a brand-new normalized key stores the raw spelling in both
tables and returns it. -/
theorem get_canonical_artist_new (dm : DirectoryManager) (a : String)
    (h1 : alLookup dm.artist_mappings (normalize_artist_name a) = none)
    (h2 : alLookup dm.canonical_cases (normalize_artist_name a) = none) :
    get_canonical_artist dm a =
      (a, { dm with
        canonical_cases := alUpdate dm.canonical_cases
          (normalize_artist_name a) a
        artist_mappings := alUpdate dm.artist_mappings
          (normalize_artist_name a) a }) := by
  simp only [get_canonical_artist, h1, h2]

/-- `RegistryWF` is preserved by `get_canonical_artist`. -/
theorem registryWF_get_canonical_artist (dm : DirectoryManager) (a : String)
    (hwf : RegistryWF dm) : RegistryWF (get_canonical_artist dm a).2 := by
  cases hn : alLookup dm.artist_mappings (normalize_artist_name a) with
  | some c => rw [get_canonical_artist_hit dm a c hn]; exact hwf
  | none =>
    rw [get_canonical_artist_new dm a hn ((hwf _).symm.trans hn)]
    intro k
    by_cases hk : k = normalize_artist_name a
    · subst hk; simp [alLookup_alUpdate_self]
    · simpa [alLookup_alUpdate_ne _ _ _ _ hk] using hwf k

/-- `RegistryWF` is preserved by `get_canonical_album` (which touches the
artist tables only through `get_canonical_artist`). -/
theorem registryWF_get_canonical_album (dm : DirectoryManager) (a b : String)
    (hwf : RegistryWF dm) : RegistryWF (get_canonical_album dm a b).2 := by
  have h1 := registryWF_get_canonical_artist dm a hwf
  simp only [get_canonical_album]
  cases halb : alLookup (albumsFor (get_canonical_artist dm a).2
      (get_canonical_artist dm a).1) (normalize_string b) with
  | some c => simpa [halb] using h1
  | none =>
    cases hfs : find_similar_name b ((albumsFor (get_canonical_artist dm a).2
        (get_canonical_artist dm a).1).map Prod.snd) 85 with
    | some m => simpa [halb, hfs] using h1
    | none => simpa [halb, hfs] using h1

/-- C10, stated over any well-formed registry: once a normalized key maps
to a canonical form, no later `get_canonical_artist` call changes it. -/
theorem artist_mapping_write_once (dm : DirectoryManager)
    (hwf : RegistryWF dm) (k v a : String)
    (hk : alLookup dm.artist_mappings k = some v) :
    alLookup (get_canonical_artist dm a).2.artist_mappings k = some v ∧
    alLookup (get_canonical_artist dm a).2.canonical_cases k = some v := by
  cases hn : alLookup dm.artist_mappings (normalize_artist_name a) with
  | some c =>
    rw [get_canonical_artist_hit dm a c hn]
    exact ⟨hk, (hwf k) ▸ hk⟩
  | none =>
    have hn' : alLookup dm.canonical_cases (normalize_artist_name a) = none :=
      (hwf _).symm.trans hn
    rw [get_canonical_artist_new dm a hn hn']
    have hkne : k ≠ normalize_artist_name a := by
      intro he; rw [he, hn] at hk; exact Option.noConfusion hk
    constructor
    · simpa [alLookup_alUpdate_ne _ _ _ _ hkne] using hk
    · simpa [alLookup_alUpdate_ne _ _ _ _ hkne] using (hwf k) ▸ hk

/-! ## Claim theorems: the artist registry -/

/-- C10: the artist registry's mapping is write-once — once a normalized
key has a canonical form, no later `get_canonical_artist` call changes what
is stored for that key (the exact-key hit returns before the replacement
branch can execute, since `artist_mappings` and `canonical_cases` always
agree on keys). -/
theorem claim_artist_registry_write_once (dm : DirectoryManager)
    (hwf : RegistryWF dm) (k v a : String)
    (hk : alLookup dm.artist_mappings k = some v) :
    alLookup (get_canonical_artist dm a).2.artist_mappings k = some v ∧
    alLookup (get_canonical_artist dm a).2.canonical_cases k = some v :=
  artist_mapping_write_once dm hwf k v a hk

/-- Witness for C10: a registry holding `Beatles` under key `beatles`
still holds it after resolving the longer spelling `THE BEATLES!`
(whose artist-normalized form is also a fresh key here, `the beatles`). -/
theorem claim_artist_registry_write_once_witness :
    alLookup (get_canonical_artist
      ⟨[("beatles", "Beatles")], [], [("beatles", "Beatles")]⟩
      "THE BEATLES!").2.artist_mappings "beatles" = some "Beatles" ∧
    alLookup (get_canonical_artist
      ⟨[("beatles", "Beatles")], [], [("beatles", "Beatles")]⟩
      "THE BEATLES!").2.canonical_cases "beatles" = some "Beatles" :=
  claim_artist_registry_write_once
    ⟨[("beatles", "Beatles")], [], [("beatles", "Beatles")]⟩
    (fun _ => rfl) "beatles" "Beatles" "THE BEATLES!" rfl

/-- C7: within one well-formed registry, `get_canonical_artist` is a
function of the normalized key only — an exact-key hit is returned
unchanged with no registry mutation (and no fuzzy matching is involved at
all), and two raw spellings with the same normalized key resolve to the
same canonical form even across the mutation the first call performs. -/
theorem claim_artist_resolution_key_function (dm : DirectoryManager)
    (hwf : RegistryWF dm) (a1 a2 : String)
    (hk : normalize_artist_name a1 = normalize_artist_name a2) :
    (∀ a v, alLookup dm.artist_mappings (normalize_artist_name a) = some v →
      get_canonical_artist dm a = (v, dm)) ∧
    (get_canonical_artist (get_canonical_artist dm a1).2 a2).1 =
      (get_canonical_artist dm a1).1 := by
  refine ⟨fun a v hv => get_canonical_artist_hit dm a v hv, ?_⟩
  cases hn : alLookup dm.artist_mappings (normalize_artist_name a1) with
  | some c =>
    rw [get_canonical_artist_hit dm a1 c hn]
    rw [get_canonical_artist_hit dm a2 c (hk ▸ hn)]
  | none =>
    have hn' : alLookup dm.canonical_cases (normalize_artist_name a1) = none :=
      (hwf _).symm.trans hn
    rw [get_canonical_artist_new dm a1 hn hn']
    have h2 : alLookup (alUpdate dm.artist_mappings (normalize_artist_name a1)
        a1) (normalize_artist_name a2) = some a1 := by
      rw [← hk]; exact alLookup_alUpdate_self _ _ _
    rw [get_canonical_artist_hit _ a2 a1 h2]

/-- Witness for C7: resolving `BEATLES.` then `beatles` (same normalized
key `beatles`) from the empty registry yields the same canonical form. -/
theorem claim_artist_resolution_key_function_witness :
    (∀ a v, alLookup DirectoryManager.init.artist_mappings
        (normalize_artist_name a) = some v →
      get_canonical_artist DirectoryManager.init a =
        (v, DirectoryManager.init)) ∧
    (get_canonical_artist
      (get_canonical_artist DirectoryManager.init "BEATLES.").2 "beatles").1 =
      (get_canonical_artist DirectoryManager.init "BEATLES.").1 :=
  claim_artist_resolution_key_function DirectoryManager.init registryWF_init
    "BEATLES." "beatles" (by decide)

/-- C1 (the code at the failing input): resolving `Beatles.` and then the
strictly longer `Beatles!!` — both normalizing to the key `beatles` — keeps
`Beatles.` as the canonical form; the longer spelling does *not* replace
it, because the exact-key hit returns first and the replacement branch is
unreachable. -/
theorem claim_longer_spelling_replacement_fails :
    normalize_artist_name "Beatles." = normalize_artist_name "Beatles!!" ∧
    "Beatles.".length < "Beatles!!".length ∧
    (get_canonical_artist
      (get_canonical_artist DirectoryManager.init "Beatles.").2
      "Beatles!!").1 = "Beatles." ∧
    alLookup (get_canonical_artist
      (get_canonical_artist DirectoryManager.init "Beatles.").2
      "Beatles!!").2.canonical_cases "beatles" = some "Beatles." := by
  refine ⟨by decide, by decide, by decide, by decide⟩

/-! ## Claim theorems: filename generation -/

/-- C2: a metadata record with an empty track number yields
`sanitizedTitle ++ ext` with no prefix and no separator; through extraction
a raw track tag `3` is zero-padded so that title `Yesterday` with extension
`.mp3` yields `03 - Yesterday.mp3`, and an empty track number with title
`Intro` yields `Intro.mp3`. -/
theorem claim_filename_generation (md : Metadata) (p : String)
    (h : md.tracknumber = "") :
    generate_new_filename md p =
      sanitize_filename md.title ++ ⟨(splitextExt p).data.map pyLower⟩ ∧
    (get_audio_metadata (some ⟨some "Yesterday", some "X", some "Al",
        some "3"⟩)).map (fun m => generate_new_filename m "/music/a.mp3") =
      some "03 - Yesterday.mp3" ∧
    generate_new_filename ⟨"X", "Al", "Intro", ""⟩ "/music/a.mp3" =
      "Intro.mp3" := by
  refine ⟨?_, by decide, by decide⟩
  simp [generate_new_filename, h]

/-- Witness for C2 at the record with empty track number and title
`Intro`. -/
theorem claim_filename_generation_witness :
    generate_new_filename ⟨"X", "Al", "Intro", ""⟩ "/music/a.mp3" =
      sanitize_filename "Intro" ++ ⟨(splitextExt "/music/a.mp3").data.map
        pyLower⟩ :=
  (claim_filename_generation ⟨"X", "Al", "Intro", ""⟩ "/music/a.mp3" rfl).1

/-! ## Claim theorems: artist-name normalization -/

/-- C4 fails on the code: `normalize_artist_name` is not idempotent —
stripping punctuation can expose a featuring-trigger token that only the
second application removes (`a .x b` normalizes to `a x b`, which contains
the trigger ` x `, so a second application strips it to `a`). -/
theorem claim_normalize_artist_not_idempotent :
    normalize_artist_name (normalize_artist_name "a .x b") ≠
      normalize_artist_name "a .x b" := by decide

/-- C4 (amended): `normalize_artist_name` is idempotent on its fixed
points, and in particular on ordinary artist names such as
`Florence & The Machine`, `THE BEATLES` and `AC/DC`; it is not idempotent
on all strings. -/
theorem claim_normalize_artist_idempotent_on_fixed_points :
    (∀ s, normalize_artist_name s = s →
      normalize_artist_name (normalize_artist_name s) =
        normalize_artist_name s) ∧
    normalize_artist_name (normalize_artist_name "Florence & The Machine") =
      normalize_artist_name "Florence & The Machine" ∧
    normalize_artist_name (normalize_artist_name "THE BEATLES") =
      normalize_artist_name "THE BEATLES" ∧
    normalize_artist_name (normalize_artist_name "AC/DC") =
      normalize_artist_name "AC/DC" := by
  refine ⟨fun s h => ?_, by decide, by decide, by decide⟩
  rw [h]; exact h

/-- Witness for the amended C4 at the fixed point `abba`. -/
theorem claim_normalize_artist_idempotent_witness :
    normalize_artist_name (normalize_artist_name "abba") =
      normalize_artist_name "abba" :=
  claim_normalize_artist_idempotent_on_fixed_points.1 "abba" (by decide)

/-! ## `find_similar_name`: best-match characterization -/

/-- Characterization of the `find_similar_name` loop, for any accumulator:
either nothing beats the carried best (and every remaining name scores no
higher than the carried high score or below the threshold), or the result
is the first name attaining the maximum score among those clearing 85. -/
theorem fsnGo_spec (nn : String) :
    ∀ (names : List String) (h : Nat) (b : Option String),
    (fsnGo nn 85 names h b = (h, b) ∧
      ∀ n ∈ names, fuzzScore nn (normalize_string n) ≤ h ∨
        fuzzScore nn (normalize_string n) < 85) ∨
    (∃ m pre post, names = pre ++ m :: post ∧
      fsnGo nn 85 names h b = (fuzzScore nn (normalize_string m), some m) ∧
      85 ≤ fuzzScore nn (normalize_string m) ∧
      h < fuzzScore nn (normalize_string m) ∧
      (∀ n ∈ pre, fuzzScore nn (normalize_string n) <
        fuzzScore nn (normalize_string m)) ∧
      (∀ n ∈ post, fuzzScore nn (normalize_string n) ≤
        fuzzScore nn (normalize_string m))) := by
  intro names
  induction names with
  | nil => intro h b; exact Or.inl ⟨rfl, by simp⟩
  | cons e rest ih =>
    intro h b
    by_cases hc : fuzzScore nn (normalize_string e) > h ∧
        fuzzScore nn (normalize_string e) ≥ 85
    · have hstep : fsnGo nn 85 (e :: rest) h b =
          fsnGo nn 85 rest (fuzzScore nn (normalize_string e)) (some e) := by
        simp only [fsnGo, if_pos hc]
      rcases ih (fuzzScore nn (normalize_string e)) (some e) with
        ⟨heq, hall⟩ | ⟨m, pre, post, hsplit, heq, h85, hgt, hpre, hpost⟩
      · refine Or.inr ⟨e, [], rest, by simp, hstep.trans heq, hc.2, hc.1,
          by simp, fun n hn => ?_⟩
        rcases hall n hn with hle | hlt
        · exact hle
        · exact le_of_lt (lt_of_lt_of_le hlt hc.2)
      · refine Or.inr ⟨m, e :: pre, post, by simp [hsplit], hstep.trans heq,
          h85, lt_trans hc.1 hgt, ?_, hpost⟩
        intro n hn
        rcases List.mem_cons.mp hn with rfl | hn'
        · exact hgt
        · exact hpre n hn'
    · have hstep : fsnGo nn 85 (e :: rest) h b = fsnGo nn 85 rest h b := by
        simp only [fsnGo, if_neg hc]
      have he : fuzzScore nn (normalize_string e) ≤ h ∨
          fuzzScore nn (normalize_string e) < 85 := by
        rcases Decidable.not_and_iff_or_not.mp hc with h1 | h2
        · exact Or.inl (Nat.le_of_not_lt h1)
        · exact Or.inr (Nat.lt_of_not_le h2)
      rcases ih h b with ⟨heq, hall⟩ | ⟨m, pre, post, hsplit, heq, h85, hgt,
          hpre, hpost⟩
      · refine Or.inl ⟨hstep.trans heq, fun n hn => ?_⟩
        rcases List.mem_cons.mp hn with rfl | hn'
        · exact he
        · exact hall n hn'
      · refine Or.inr ⟨m, e :: pre, post, by simp [hsplit], hstep.trans heq,
          h85, hgt, ?_, hpost⟩
        intro n hn
        rcases List.mem_cons.mp hn with rfl | hn'
        · rcases he with hle | hlt
          · exact lt_of_le_of_lt hle hgt
          · exact lt_of_lt_of_le hlt h85
        · exact hpre n hn'

/-- Equation: on a normalized-key miss with a fuzzy hit,
`get_canonical_album` returns the matched canonical name and registers the
new key as its alias. -/
theorem get_canonical_album_eq_fuzzy (dm : DirectoryManager)
    (artist album m : String)
    (hmiss : alLookup (albumsFor (get_canonical_artist dm artist).2
      (get_canonical_artist dm artist).1) (normalize_string album) = none)
    (hf : find_similar_name album
      ((albumsFor (get_canonical_artist dm artist).2
        (get_canonical_artist dm artist).1).map Prod.snd) 85 = some m) :
    get_canonical_album dm artist album =
      (m, { (get_canonical_artist dm artist).2 with
        album_mappings := alUpdate
          (get_canonical_artist dm artist).2.album_mappings
          (get_canonical_artist dm artist).1
          (alUpdate (albumsFor (get_canonical_artist dm artist).2
            (get_canonical_artist dm artist).1)
            (normalize_string album) m) }) := by
  simp only [get_canonical_album, hmiss, hf]

/-- Equation: on a normalized-key miss with no fuzzy hit,
`get_canonical_album` registers the raw album as a new canonical name and
returns it. -/
theorem get_canonical_album_eq_new (dm : DirectoryManager)
    (artist album : String)
    (hmiss : alLookup (albumsFor (get_canonical_artist dm artist).2
      (get_canonical_artist dm artist).1) (normalize_string album) = none)
    (hf : find_similar_name album
      ((albumsFor (get_canonical_artist dm artist).2
        (get_canonical_artist dm artist).1).map Prod.snd) 85 = none) :
    get_canonical_album dm artist album =
      (album, { (get_canonical_artist dm artist).2 with
        album_mappings := alUpdate
          (get_canonical_artist dm artist).2.album_mappings
          (get_canonical_artist dm artist).1
          (alUpdate (albumsFor (get_canonical_artist dm artist).2
            (get_canonical_artist dm artist).1)
            (normalize_string album) album) }) := by
  simp only [get_canonical_album, hmiss, hf]

/-! ## Claim theorems: album resolution -/

/-- C6: with no exact normalized-key hit, `get_canonical_album` runs fuzzy
matching over the canonical album names registered under the canonical
artist at threshold 85 — a `some` result of `find_similar_name` is the
first name in insertion order attaining the maximum score, that score is at
least 85, a `none` result means no name reached 85 — the returned album is
the matched name (or the raw album when there is no hit), and in both cases
the new normalized key is registered under the canonical artist, mapping to
the returned name.  Concretely, with `A Night at the Opera` registered
under `Queen`, resolving `A Nite at the Opera` returns
`A Night at the Opera`. -/
theorem claim_album_fuzzy_resolution :
    (∀ (name : String) (names : List String) (m : String),
      find_similar_name name names 85 = some m →
      ∃ pre post, names = pre ++ m :: post ∧
        85 ≤ fuzzScore (normalize_string name) (normalize_string m) ∧
        (∀ n ∈ pre, fuzzScore (normalize_string name) (normalize_string n) <
          fuzzScore (normalize_string name) (normalize_string m)) ∧
        (∀ n ∈ post, fuzzScore (normalize_string name) (normalize_string n) ≤
          fuzzScore (normalize_string name) (normalize_string m))) ∧
    (∀ (name : String) (names : List String),
      find_similar_name name names 85 = none →
      ∀ n ∈ names,
        fuzzScore (normalize_string name) (normalize_string n) < 85) ∧
    (∀ (dm : DirectoryManager) (artist album : String),
      alLookup (albumsFor (get_canonical_artist dm artist).2
        (get_canonical_artist dm artist).1) (normalize_string album) = none →
      ((∃ m, find_similar_name album
          ((albumsFor (get_canonical_artist dm artist).2
            (get_canonical_artist dm artist).1).map Prod.snd) 85 = some m ∧
          (get_canonical_album dm artist album).1 = m) ∨
        (find_similar_name album
          ((albumsFor (get_canonical_artist dm artist).2
            (get_canonical_artist dm artist).1).map Prod.snd) 85 = none ∧
          (get_canonical_album dm artist album).1 = album)) ∧
      alLookup (albumsFor (get_canonical_album dm artist album).2
        (get_canonical_artist dm artist).1) (normalize_string album) =
        some (get_canonical_album dm artist album).1) ∧
    (get_canonical_album (get_canonical_album DirectoryManager.init "Queen"
      "A Night at the Opera").2 "Queen" "A Nite at the Opera").1 =
      "A Night at the Opera" := by
  refine ⟨?_, ?_, ?_, by decide⟩
  · intro name names m hm
    rcases fsnGo_spec (normalize_string name) names 0 none with
      ⟨heq, _⟩ | ⟨m', pre, post, hsplit, heq, h85, _, hpre, hpost⟩
    · exfalso
      have hnone : find_similar_name name names 85 = none := by
        simp only [find_similar_name, heq]
      rw [hnone] at hm
      exact Option.noConfusion hm
    · have hmm : m' = m := by
        have h2 := hm
        simp only [find_similar_name, heq] at h2
        exact Option.some_injective _ h2
      subst hmm
      exact ⟨pre, post, hsplit, h85, hpre, hpost⟩
  · intro name names hnone n hn
    rcases fsnGo_spec (normalize_string name) names 0 none with
      ⟨_, hall⟩ | ⟨m', pre, post, _, heq, _, _, _, _⟩
    · rcases hall n hn with hle | hlt
      · exact lt_of_le_of_lt hle (by norm_num)
      · exact hlt
    · exfalso
      simp only [find_similar_name, heq] at hnone
      exact Option.noConfusion hnone
  · intro dm artist album hmiss
    cases hf : find_similar_name album
        ((albumsFor (get_canonical_artist dm artist).2
          (get_canonical_artist dm artist).1).map Prod.snd) 85 with
    | some m =>
      rw [get_canonical_album_eq_fuzzy dm artist album m hmiss hf]
      exact ⟨Or.inl ⟨m, rfl, rfl⟩, by simp [albumsFor, alLookup_alUpdate_self]⟩
    | none =>
      rw [get_canonical_album_eq_new dm artist album hmiss hf]
      exact ⟨Or.inr ⟨rfl, rfl⟩, by simp [albumsFor, alLookup_alUpdate_self]⟩

/-- Witness for C6 at the spec's example: fuzzy-resolving
`A Nite at the Opera` against the single registered name
`A Night at the Opera` picks that name with a score of at least 85. -/
theorem claim_album_fuzzy_resolution_witness :
    ∃ pre post, ["A Night at the Opera"] =
        pre ++ "A Night at the Opera" :: post ∧
      85 ≤ fuzzScore (normalize_string "A Nite at the Opera")
        (normalize_string "A Night at the Opera") ∧
      (∀ n ∈ pre, fuzzScore (normalize_string "A Nite at the Opera")
          (normalize_string n) <
        fuzzScore (normalize_string "A Nite at the Opera")
          (normalize_string "A Night at the Opera")) ∧
      (∀ n ∈ post, fuzzScore (normalize_string "A Nite at the Opera")
          (normalize_string n) ≤
        fuzzScore (normalize_string "A Nite at the Opera")
          (normalize_string "A Night at the Opera")) :=
  claim_album_fuzzy_resolution.1 "A Nite at the Opera"
    ["A Night at the Opera"] "A Night at the Opera" (by decide)

/-! ## Per-file behaviour of the analysis loop -/

/-- Canonical artist chosen while processing a file with metadata `md`. -/
def caStep (dm : DirectoryManager) (md : Metadata) : String :=
  (get_canonical_artist dm md.artist).1

/-- Canonical album chosen while processing a file with metadata `md`. -/
def albStep (dm : DirectoryManager) (md : Metadata) : String :=
  (get_canonical_album (get_canonical_artist dm md.artist).2
    (get_canonical_artist dm md.artist).1 md.album).1

/-- Registry state after the canonical resolutions for metadata `md`. -/
def dmStep (dm : DirectoryManager) (md : Metadata) : DirectoryManager :=
  (get_canonical_album (get_canonical_artist dm md.artist).2
    (get_canonical_artist dm md.artist).1 md.album).2

/-- The move-plan entry built for a file with metadata `md`. -/
def moveEntryOf (dm : DirectoryManager) (md : Metadata) (f : FileInput) :
    MoveEntry :=
  ⟨f.path, basename f.path, generate_new_filename md f.path,
    { md with artist := caStep dm md, album := albStep dm md }⟩

/-- The destination directory computed for metadata `md`. -/
def destOf (root : String) (dm : DirectoryManager) (md : Metadata) : String :=
  joinPath3 root (sanitize_filename (caStep dm md))
    (sanitize_filename (albStep dm md))

theorem alLookup_append_of_none {α : Type} (l l' : List (String × α))
    (k : String) (h : alLookup l k = none) :
    alLookup (l ++ l') k = alLookup l' k := by
  induction l with
  | nil => rfl
  | cons p rest ih =>
    obtain ⟨k1, v1⟩ := p
    by_cases hk : k1 = k
    · simp [alLookup, hk] at h
    · simp only [alLookup, if_neg hk] at h
      simpa [alLookup, hk] using ih h

theorem alLookup_append_single_ne {α : Type} (l : List (String × α))
    (k k' : String) (v : α) (h : k' ≠ k) :
    alLookup (l ++ [(k, v)]) k' = alLookup l k' := by
  induction l with
  | nil =>
    show (if k = k' then some v else alLookup [] k') = alLookup [] k'
    rw [if_neg (fun e => h e.symm)]
  | cons p rest ih =>
    obtain ⟨k1, v1⟩ := p
    by_cases hk : k1 = k'
    · simp [alLookup, hk]
    · simp [alLookup, hk, ih]

theorem mdAppend_self {α : Type} (l : List (String × List α)) (k : String)
    (x : α) : alLookup (mdAppend l k x) k =
      some ((alLookup l k).getD [] ++ [x]) := by
  cases h : alLookup l k with
  | some xs => simp [mdAppend, h, alLookup_alUpdate_self]
  | none =>
    simp only [mdAppend, h]
    rw [alLookup_append_of_none _ _ _ h]
    simp [alLookup]

theorem mdAppend_ne {α : Type} (l : List (String × List α)) (k k' : String)
    (x : α) (h : k' ≠ k) : alLookup (mdAppend l k x) k' = alLookup l k' := by
  cases hl : alLookup l k with
  | some xs => simp [mdAppend, hl, alLookup_alUpdate_ne _ _ _ _ h]
  | none => simp [mdAppend, hl, alLookup_append_single_ne _ _ _ _ h]

theorem movesPaths_cons (p : String × List MoveEntry)
    (rest : List (String × List MoveEntry)) :
    movesPaths (p :: rest) =
      p.2.map (·.original_path) ++ movesPaths rest := rfl

theorem mem_movesPaths_alUpdate (mv : List (String × List MoveEntry))
    (k : String) (xs : List MoveEntry) (e : MoveEntry) (x : String)
    (h : alLookup mv k = some xs) :
    (x ∈ movesPaths (alUpdate mv k (xs ++ [e])) ↔
      x ∈ movesPaths mv ∨ x = e.original_path) := by
  induction mv with
  | nil => exact absurd h (by simp [alLookup])
  | cons p rest ih =>
    obtain ⟨k1, v1⟩ := p
    by_cases hk : k1 = k
    · have hv : v1 = xs := by
        simpa [alLookup, hk] using h
      subst hv
      simp only [alUpdate, if_pos hk]
      rw [movesPaths_cons, movesPaths_cons]
      simp only [List.map_append, List.map_cons, List.map_nil,
        List.mem_append, List.mem_singleton]
      tauto
    · have h' : alLookup rest k = some xs := by
        simpa [alLookup, hk] using h
      simp only [alUpdate, if_neg hk]
      rw [movesPaths_cons, movesPaths_cons]
      simp only [List.mem_append]
      rw [ih h']
      tauto

theorem mem_movesPaths_mdAppend (mv : List (String × List MoveEntry))
    (k : String) (e : MoveEntry) (x : String) :
    (x ∈ movesPaths (mdAppend mv k e) ↔
      x ∈ movesPaths mv ∨ x = e.original_path) := by
  cases h : alLookup mv k with
  | some xs =>
    have := mem_movesPaths_alUpdate mv k xs e x h
    simpa [mdAppend, h] using this
  | none =>
    simp [mdAppend, h, movesPaths, List.map_append, List.flatten_append]

theorem process_eq_meta_none (root : String) (st : AnalysisState)
    (f : FileInput) (hmd : get_audio_metadata f.tags = none) :
    process_file root st f = { st with skipped_files := st.skipped_files ++
      [⟨f.path, "Missing required metadata (title/artist)"⟩] } := by
  simp only [process_file, hmd]

theorem process_eq_hash_err (root : String) (st : AnalysisState)
    (f : FileInput) (md : Metadata) (e : String)
    (hmd : get_audio_metadata f.tags = some md) (hh : f.hash = .err e) :
    process_file root st f = { st with
      dm := dmStep st.dm md
      skipped_files := st.skipped_files ++
        [⟨f.path, "Error processing file: " ++ e⟩] } := by
  simp only [process_file, hmd, hh, dmStep]

theorem process_eq_dup (root : String) (st : AnalysisState) (f : FileInput)
    (md : Metadata) (h : String) (hmd : get_audio_metadata f.tags = some md)
    (hh : f.hash = .ok h) (hu : (alLookup st.unique_files h).isSome = true) :
    process_file root st f = { st with
      dm := dmStep st.dm md
      duplicates := mdAppend st.duplicates h f.path } := by
  simp only [process_file, hmd, hh, hu, if_pos, dmStep]

theorem process_eq_new (root : String) (st : AnalysisState) (f : FileInput)
    (md : Metadata) (h : String) (hmd : get_audio_metadata f.tags = some md)
    (hh : f.hash = .ok h) (hu : alLookup st.unique_files h = none) :
    process_file root st f = { st with
      dm := dmStep st.dm md
      unique_files := alUpdate st.unique_files h f.path
      proposed_moves := mdAppend st.proposed_moves (destOf root st.dm md)
        (moveEntryOf st.dm md f) } := by
  simp only [process_file, hmd, hh, hu, Option.isSome_none, dmStep, destOf,
    moveEntryOf, caStep, albStep, Bool.false_eq_true, if_false]

/-- Boolean form of "the pass observes digest `d` for file `f`". -/
def hasDigest (d : String) (f : FileInput) : Bool := fileDigest f == some d

theorem hasDigest_iff (d : String) (f : FileInput) :
    hasDigest d f = true ↔ fileDigest f = some d := by
  simp [hasDigest]

theorem fileDigest_meta_none (f : FileInput)
    (hmd : get_audio_metadata f.tags = none) : fileDigest f = none := by
  unfold fileDigest
  rw [hmd]

theorem fileDigest_hash_err (f : FileInput) (md : Metadata) (e : String)
    (hmd : get_audio_metadata f.tags = some md) (hh : f.hash = .err e) :
    fileDigest f = none := by
  unfold fileDigest
  rw [hmd, hh]

theorem fileDigest_hash_ok (f : FileInput) (md : Metadata) (h : String)
    (hmd : get_audio_metadata f.tags = some md) (hh : f.hash = .ok h) :
    fileDigest f = some h := by
  unfold fileDigest
  rw [hmd, hh]

/-! ### Per-file behaviour of each output field -/

theorem skipped_process (root : String) (st : AnalysisState) (f : FileInput) :
    (process_file root st f).skipped_files =
      st.skipped_files ++ (skipRecOf f).toList := by
  cases hmd : get_audio_metadata f.tags with
  | none =>
    rw [process_eq_meta_none root st f hmd]
    simp [skipRecOf, hmd]
  | some md =>
    cases hh : f.hash with
    | ok h =>
      cases hu : alLookup st.unique_files h with
      | some p =>
        rw [process_eq_dup root st f md h hmd hh (by rw [hu]; rfl)]
        simp [skipRecOf, hmd, hh]
      | none =>
        rw [process_eq_new root st f md h hmd hh hu]
        simp [skipRecOf, hmd, hh]
    | err e =>
      rw [process_eq_hash_err root st f md e hmd hh]
      simp [skipRecOf, hmd, hh]

theorem unique_process_present (root : String) (st : AnalysisState)
    (f : FileInput) (d p : String)
    (hd : alLookup st.unique_files d = some p) :
    alLookup (process_file root st f).unique_files d = some p := by
  cases hmd : get_audio_metadata f.tags with
  | none => rw [process_eq_meta_none root st f hmd]; exact hd
  | some md =>
    cases hh : f.hash with
    | ok h =>
      cases hu : alLookup st.unique_files h with
      | some q =>
        rw [process_eq_dup root st f md h hmd hh (by rw [hu]; rfl)]
        exact hd
      | none =>
        rw [process_eq_new root st f md h hmd hh hu]
        have hne : d ≠ h := by
          intro he; rw [he, hu] at hd; exact Option.noConfusion hd
        show alLookup (alUpdate st.unique_files h f.path) d = some p
        rw [alLookup_alUpdate_ne _ _ _ _ hne]
        exact hd
    | err e => rw [process_eq_hash_err root st f md e hmd hh]; exact hd

theorem unique_process_absent (root : String) (st : AnalysisState)
    (f : FileInput) (d : String) (hd : alLookup st.unique_files d = none) :
    alLookup (process_file root st f).unique_files d =
      (if fileDigest f = some d then some f.path else none) := by
  cases hmd : get_audio_metadata f.tags with
  | none =>
    rw [process_eq_meta_none root st f hmd, fileDigest_meta_none f hmd]
    simpa using hd
  | some md =>
    cases hh : f.hash with
    | ok h =>
      rw [fileDigest_hash_ok f md h hmd hh]
      cases hu : alLookup st.unique_files h with
      | some q =>
        rw [process_eq_dup root st f md h hmd hh (by rw [hu]; rfl)]
        have hne : ¬ (some h = some d) := by
          intro he
          rw [Option.some_inj.mp he, hd] at hu
          exact Option.noConfusion hu
        rw [if_neg hne]
        exact hd
      | none =>
        rw [process_eq_new root st f md h hmd hh hu]
        show alLookup (alUpdate st.unique_files h f.path) d = _
        by_cases he : h = d
        · subst he
          rw [alLookup_alUpdate_self, if_pos rfl]
        · rw [alLookup_alUpdate_ne _ _ _ _ (fun e => he e.symm),
            if_neg (fun e => he (Option.some_inj.mp e)), hd]
    | err e =>
      rw [process_eq_hash_err root st f md e hmd hh,
        fileDigest_hash_err f md e hmd hh]
      simpa using hd

theorem dup_process_other (root : String) (st : AnalysisState) (f : FileInput)
    (d : String) (hd : fileDigest f ≠ some d) :
    dupGroup (process_file root st f) d = dupGroup st d := by
  cases hmd : get_audio_metadata f.tags with
  | none => rw [process_eq_meta_none root st f hmd]; rfl
  | some md =>
    cases hh : f.hash with
    | ok h =>
      have hne : d ≠ h := by
        intro he
        exact hd (he ▸ fileDigest_hash_ok f md h hmd hh)
      cases hu : alLookup st.unique_files h with
      | some q =>
        rw [process_eq_dup root st f md h hmd hh (by rw [hu]; rfl)]
        show (alLookup (mdAppend st.duplicates h f.path) d).getD [] = _
        rw [mdAppend_ne _ _ _ _ hne]
        rfl
      | none => rw [process_eq_new root st f md h hmd hh hu]; rfl
    | err e => rw [process_eq_hash_err root st f md e hmd hh]; rfl

theorem fileDigest_some_inv (f : FileInput) (d : String)
    (h : fileDigest f = some d) :
    (∃ md, get_audio_metadata f.tags = some md) ∧ f.hash = .ok d := by
  cases hmd : get_audio_metadata f.tags with
  | none =>
    rw [fileDigest_meta_none f hmd] at h
    exact Option.noConfusion h
  | some md =>
    cases hh : f.hash with
    | ok h' =>
      rw [fileDigest_hash_ok f md h' hmd hh] at h
      exact ⟨⟨md, rfl⟩, Option.some_inj.mp h ▸ rfl⟩
    | err e =>
      rw [fileDigest_hash_err f md e hmd hh] at h
      exact Option.noConfusion h

theorem unique_process_lookup_other (root : String) (st : AnalysisState)
    (f : FileInput) (d : String) (hf : fileDigest f ≠ some d) :
    alLookup (process_file root st f).unique_files d =
      alLookup st.unique_files d := by
  cases hmd : get_audio_metadata f.tags with
  | none => rw [process_eq_meta_none root st f hmd]
  | some md =>
    cases hh : f.hash with
    | ok h =>
      cases hu : alLookup st.unique_files h with
      | some q => rw [process_eq_dup root st f md h hmd hh (by rw [hu]; rfl)]
      | none =>
        rw [process_eq_new root st f md h hmd hh hu]
        have hne : d ≠ h := by
          intro he
          exact hf (he ▸ fileDigest_hash_ok f md h hmd hh)
        exact alLookup_alUpdate_ne _ _ _ _ hne
    | err e => rw [process_eq_hash_err root st f md e hmd hh]

theorem dup_process_append (root : String) (st : AnalysisState)
    (f : FileInput) (md : Metadata) (h : String)
    (hmd : get_audio_metadata f.tags = some md) (hh : f.hash = .ok h)
    (hu : (alLookup st.unique_files h).isSome = true) :
    dupGroup (process_file root st f) h = dupGroup st h ++ [f.path] := by
  rw [process_eq_dup root st f md h hmd hh hu]
  show (alLookup (mdAppend st.duplicates h f.path) h).getD [] = _
  rw [mdAppend_self]
  rfl

theorem dup_process_new (root : String) (st : AnalysisState) (f : FileInput)
    (md : Metadata) (h d : String)
    (hmd : get_audio_metadata f.tags = some md) (hh : f.hash = .ok h)
    (hu : alLookup st.unique_files h = none) :
    dupGroup (process_file root st f) d = dupGroup st d := by
  rw [process_eq_new root st f md h hmd hh hu]
  rfl

theorem moves_process_none (root : String) (st : AnalysisState)
    (f : FileInput) (hd : fileDigest f = none) :
    movePlanPaths (process_file root st f) = movePlanPaths st := by
  cases hmd : get_audio_metadata f.tags with
  | none => rw [process_eq_meta_none root st f hmd]; rfl
  | some md =>
    cases hh : f.hash with
    | ok h =>
      rw [fileDigest_hash_ok f md h hmd hh] at hd
      exact Option.noConfusion hd
    | err e => rw [process_eq_hash_err root st f md e hmd hh]; rfl

theorem moves_process_dup (root : String) (st : AnalysisState) (f : FileInput)
    (md : Metadata) (h : String) (hmd : get_audio_metadata f.tags = some md)
    (hh : f.hash = .ok h) (hu : (alLookup st.unique_files h).isSome = true) :
    movePlanPaths (process_file root st f) = movePlanPaths st := by
  rw [process_eq_dup root st f md h hmd hh hu]
  rfl

theorem moves_process_new (root : String) (st : AnalysisState) (f : FileInput)
    (md : Metadata) (h : String) (hmd : get_audio_metadata f.tags = some md)
    (hh : f.hash = .ok h) (hu : alLookup st.unique_files h = none)
    (x : String) :
    (x ∈ movePlanPaths (process_file root st f) ↔
      x ∈ movePlanPaths st ∨ x = f.path) := by
  rw [process_eq_new root st f md h hmd hh hu]
  exact mem_movesPaths_mdAppend st.proposed_moves (destOf root st.dm md)
    (moveEntryOf st.dm md f) x

theorem unique_process_dup_eq (root : String) (st : AnalysisState)
    (f : FileInput) (md : Metadata) (h : String)
    (hmd : get_audio_metadata f.tags = some md) (hh : f.hash = .ok h)
    (hu : (alLookup st.unique_files h).isSome = true) :
    (process_file root st f).unique_files = st.unique_files := by
  rw [process_eq_dup root st f md h hmd hh hu]

/-! ### Fold invariants of the analysis pass -/

theorem skipped_fold (root : String) : ∀ (fs : List FileInput)
    (st : AnalysisState),
    (fs.foldl (process_file root) st).skipped_files =
      st.skipped_files ++ fs.filterMap skipRecOf := by
  intro fs
  induction fs with
  | nil => intro st; simp
  | cons f fs ih =>
    intro st
    show (fs.foldl (process_file root) (process_file root st f)).skipped_files
      = _
    rw [ih (process_file root st f), skipped_process]
    cases hs : skipRecOf f <;> simp [hs, List.filterMap_cons]

theorem unique_fold_present (root : String) : ∀ (fs : List FileInput)
    (st : AnalysisState) (d p : String),
    alLookup st.unique_files d = some p →
    alLookup (fs.foldl (process_file root) st).unique_files d = some p := by
  intro fs
  induction fs with
  | nil => intro st d p hd; exact hd
  | cons f fs ih =>
    intro st d p hd
    exact ih (process_file root st f) d p
      (unique_process_present root st f d p hd)

theorem unique_fold_absent (root : String) : ∀ (fs : List FileInput)
    (st : AnalysisState) (d : String),
    alLookup st.unique_files d = none →
    alLookup (fs.foldl (process_file root) st).unique_files d =
      (fs.find? (hasDigest d)).map (·.path) := by
  intro fs
  induction fs with
  | nil => intro st d hd; simpa using hd
  | cons f fs ih =>
    intro st d hd
    have hstep := unique_process_absent root st f d hd
    by_cases hf : fileDigest f = some d
    · rw [if_pos hf] at hstep
      show alLookup
        (fs.foldl (process_file root) (process_file root st f)).unique_files d
        = _
      rw [unique_fold_present root fs (process_file root st f) d f.path hstep,
        List.find?_cons_of_pos _ ((hasDigest_iff d f).mpr hf)]
      rfl
    · rw [if_neg hf] at hstep
      show alLookup
        (fs.foldl (process_file root) (process_file root st f)).unique_files d
        = _
      rw [ih (process_file root st f) d hstep,
        List.find?_cons_of_neg _ (by simp [hasDigest_iff, hf])]

theorem dup_fold (root : String) : ∀ (fs : List FileInput)
    (st : AnalysisState) (d : String),
    dupGroup (fs.foldl (process_file root) st) d =
      dupGroup st d ++
        (if (alLookup st.unique_files d).isSome
         then (fs.filter (hasDigest d)).map (·.path)
         else ((fs.filter (hasDigest d)).map (·.path)).tail) := by
  intro fs
  induction fs with
  | nil => intro st d; cases hu : alLookup st.unique_files d <;> simp
  | cons f fs ih =>
    intro st d
    show dupGroup (fs.foldl (process_file root) (process_file root st f)) d = _
    by_cases hf : fileDigest f = some d
    · obtain ⟨⟨md, hmd⟩, hh⟩ := fileDigest_some_inv f d hf
      have hfc : List.filter (hasDigest d) (f :: fs) =
          f :: List.filter (hasDigest d) fs :=
        List.filter_cons_of_pos (by simp [hasDigest_iff, hf])
      cases hu : alLookup st.unique_files d with
      | some q =>
        have hu' : (alLookup st.unique_files d).isSome = true := by
          rw [hu]; rfl
        rw [ih (process_file root st f) d,
          dup_process_append root st f md d hmd hh hu',
          unique_process_dup_eq root st f md d hmd hh hu', hu, hfc]
        simp
      | none =>
        have hstep := unique_process_absent root st f d hu
        rw [if_pos hf] at hstep
        rw [ih (process_file root st f) d,
          dup_process_new root st f md d d hmd hh hu, hstep, hfc]
        simp
    · have hfc : List.filter (hasDigest d) (f :: fs) =
          List.filter (hasDigest d) fs :=
        List.filter_cons_of_neg (by simp [hasDigest_iff, hf])
      rw [ih (process_file root st f) d, dup_process_other root st f d hf,
        unique_process_lookup_other root st f d hf, hfc]

theorem moves_fold (root : String) : ∀ (fs : List FileInput)
    (st : AnalysisState) (x : String),
    (x ∈ movePlanPaths (fs.foldl (process_file root) st) ↔
      x ∈ movePlanPaths st ∨ ∃ d, alLookup st.unique_files d = none ∧
        (fs.find? (hasDigest d)).map (·.path) = some x) := by
  intro fs
  induction fs with
  | nil => intro st x; simp
  | cons f fs ih =>
    intro st x
    show x ∈ movePlanPaths
      (fs.foldl (process_file root) (process_file root st f)) ↔ _
    rw [ih (process_file root st f) x]
    cases hfd : fileDigest f with
    | none =>
      rw [moves_process_none root st f hfd]
      refine or_congr Iff.rfl (exists_congr fun d => ?_)
      have h1 : alLookup (process_file root st f).unique_files d =
          alLookup st.unique_files d :=
        unique_process_lookup_other root st f d
          (fun he => by rw [hfd] at he; exact Option.noConfusion he)
      have h2 : List.find? (hasDigest d) (f :: fs) =
          List.find? (hasDigest d) fs :=
        List.find?_cons_of_neg _ (by simp [hasDigest_iff, hfd])
      rw [h1, h2]
    | some h =>
      obtain ⟨⟨md, hmd⟩, hh⟩ := fileDigest_some_inv f h hfd
      cases hu : alLookup st.unique_files h with
      | some q =>
        have hu' : (alLookup st.unique_files h).isSome = true := by
          rw [hu]; rfl
        rw [moves_process_dup root st f md h hmd hh hu']
        constructor
        · rintro (hx | ⟨d, hnone, hfind⟩)
          · exact Or.inl hx
          · have hne : d ≠ h := by
              intro he
              rw [unique_process_dup_eq root st f md h hmd hh hu', he, hu]
                at hnone
              exact Option.noConfusion hnone
            refine Or.inr ⟨d, ?_, ?_⟩
            · rw [unique_process_dup_eq root st f md h hmd hh hu'] at hnone
              exact hnone
            · rw [List.find?_cons_of_neg _
                (by simp [hasDigest_iff, hfd]; exact fun e => hne e.symm)]
              exact hfind
        · rintro (hx | ⟨d, hnone, hfind⟩)
          · exact Or.inl hx
          · have hne : d ≠ h := by
              intro he
              rw [he, hu] at hnone
              exact Option.noConfusion hnone
            refine Or.inr ⟨d, ?_, ?_⟩
            · rw [unique_process_dup_eq root st f md h hmd hh hu']
              exact hnone
            · rw [List.find?_cons_of_neg _
                (by simp [hasDigest_iff, hfd]; exact fun e => hne e.symm)] at hfind
              exact hfind
      | none =>
        rw [moves_process_new root st f md h hmd hh hu x]
        have hlook : alLookup (process_file root st f).unique_files h =
            some f.path := by
          have := unique_process_absent root st f h hu
          rwa [if_pos hfd] at this
        constructor
        · rintro ((hx | hx) | ⟨d, hnone, hfind⟩)
          · exact Or.inl hx
          · refine Or.inr ⟨h, hu, ?_⟩
            rw [List.find?_cons_of_pos _ ((hasDigest_iff h f).mpr hfd)]
            simpa using hx.symm
          · have hne : d ≠ h := by
              intro he
              rw [he, hlook] at hnone
              exact Option.noConfusion hnone
            have h1 : alLookup (process_file root st f).unique_files d =
                alLookup st.unique_files d := by
              rw [process_eq_new root st f md h hmd hh hu]
              exact alLookup_alUpdate_ne _ _ _ _ hne
            refine Or.inr ⟨d, h1 ▸ hnone, ?_⟩
            rw [List.find?_cons_of_neg _
              (by simp [hasDigest_iff, hfd]; exact fun e => hne e.symm)]
            exact hfind
        · rintro (hx | ⟨d, hnone, hfind⟩)
          · exact Or.inl (Or.inl hx)
          · by_cases hde : d = h
            · subst hde
              rw [List.find?_cons_of_pos _ ((hasDigest_iff d f).mpr hfd)]
                at hfind
              refine Or.inl (Or.inr ?_)
              simpa using hfind.symm
            · have h1 : alLookup (process_file root st f).unique_files d =
                  alLookup st.unique_files d := by
                rw [process_eq_new root st f md h hmd hh hu]
                exact alLookup_alUpdate_ne _ _ _ _ hde
              refine Or.inr ⟨d, h1.trans hnone, ?_⟩
              rw [List.find?_cons_of_neg _
                (by simp [hasDigest_iff, hfd]; exact fun e => hde e.symm)] at hfind
              exact hfind

/-! ## Assembling the claims about the analysis pass -/

theorem find?_eq_head_of_filter {α : Type} (p : α → Bool) (l : List α)
    (a : α) (rest : List α) (h : l.filter p = a :: rest) :
    l.find? p = some a := by
  induction l with
  | nil => simp at h
  | cons b l ih =>
    by_cases hb : p b = true
    · rw [List.filter_cons_of_pos hb] at h
      injection h with h1 h2
      rw [List.find?_cons_of_pos _ hb, h1]
    · rw [List.filter_cons_of_neg (by simp [hb])] at h
      rw [List.find?_cons_of_neg _ (by simp [hb])]
      exact ih h

/-- The record a file contributes to `skipped_files` always carries that
file's path. -/
theorem skipRecOf_path (f : FileInput) (r : SkipRecord)
    (h : skipRecOf f = some r) : r.path = f.path := by
  unfold skipRecOf at h
  cases hmd : get_audio_metadata f.tags with
  | none =>
    rw [hmd] at h
    injection h with h1
    rw [← h1]
  | some md =>
    rw [hmd] at h
    cases hh : f.hash with
    | ok d => rw [hh] at h; exact Option.noConfusion h
    | err e =>
      rw [hh] at h
      injection h with h1
      rw [← h1]

/-- If a file with metadata `none` or a hashing error sits in a
duplicate-free scan, its path never enters the move plan. -/
theorem path_not_in_moves (root : String) (files : List FileInput)
    (f : FileInput) (hf : f ∈ files)
    (hnd : (files.map (·.path)).Nodup) (hdig : fileDigest f = none) :
    f.path ∉ movePlanPaths (analyze_music_directory root files) := by
  intro hx
  have hiff := (moves_fold root files initState f.path).mp hx
  rcases hiff with hx0 | ⟨d, _, hfind⟩
  · simp [movePlanPaths, initState, movesPaths] at hx0
  · cases hg : files.find? (hasDigest d) with
    | none => rw [hg] at hfind; exact Option.noConfusion hfind
    | some g =>
      rw [hg] at hfind
      have hgp : g.path = f.path := by
        injection hfind
      have hgmem : g ∈ files := List.mem_of_find?_eq_some hg
      have hgf : g = f := List.inj_on_of_nodup_map hnd hgmem hf hgp
      have hpred : hasDigest d g = true := List.find?_some hg
      rw [hgf, hasDigest_iff, hdig] at hpred
      exact Option.noConfusion hpred

theorem filter_skip_nil (f : FileInput) (rest : List FileInput)
    (h : f.path ∉ rest.map (·.path)) :
    (rest.filterMap skipRecOf).filter (fun r => r.path == f.path) = [] := by
  induction rest with
  | nil => rfl
  | cons g rest ih =>
    have hg : g.path ≠ f.path := by
      intro he
      exact h (by rw [← he]; simp)
    have hrest : f.path ∉ rest.map (·.path) := by
      intro he
      exact h (by simp [he])
    cases hs : skipRecOf g with
    | none => simp only [List.filterMap_cons, hs]; exact ih hrest
    | some r =>
      have hr : r.path = g.path := skipRecOf_path g r hs
      simp only [List.filterMap_cons, hs]
      rw [List.filter_cons_of_neg (by simp [hr, hg])]
      exact ih hrest

theorem filter_skip_unique (f : FileInput) :
    ∀ (files : List FileInput), f ∈ files →
    ((files.map (·.path)).Nodup) →
    get_audio_metadata f.tags = none →
    (files.filterMap skipRecOf).filter (fun r => r.path == f.path) =
      [⟨f.path, "Missing required metadata (title/artist)"⟩] := by
  intro files
  induction files with
  | nil => intro hf; exact absurd hf (List.not_mem_nil f)
  | cons g rest ih =>
    intro hf hnd hmiss
    have hnd1 : g.path ∉ rest.map (·.path) := (List.nodup_cons.mp hnd).1
    have hnd2 : (rest.map (·.path)).Nodup := (List.nodup_cons.mp hnd).2
    rcases List.mem_cons.mp hf with rfl | hfr
    · have hs : skipRecOf f =
          some ⟨f.path, "Missing required metadata (title/artist)"⟩ := by
        simp [skipRecOf, hmiss]
      simp only [List.filterMap_cons, hs]
      rw [List.filter_cons_of_pos (by simp)]
      rw [filter_skip_nil f rest hnd1]
    · have hg : g.path ≠ f.path := by
        intro he
        exact hnd1 (by rw [he]; exact List.mem_map_of_mem _ hfr)
      cases hs : skipRecOf g with
      | none => simp only [List.filterMap_cons, hs]; exact ih hfr hnd2 hmiss
      | some r =>
        have hr : r.path = g.path := skipRecOf_path g r hs
        simp only [List.filterMap_cons, hs]
        rw [List.filter_cons_of_neg (by simp [hr, hg])]
        exact ih hfr hnd2 hmiss

/-- C3 fails on the code: a file whose artist tag is *present but empty*
passes `get_audio_metadata` (which only checks key presence), so it lands
in the move plan and not in the skip list. -/
theorem claim_empty_artist_not_skipped_cex :
    (analyze_music_directory "/root"
      [⟨"/m/a.mp3", some ⟨some "Song", some "", some "Al", some "1"⟩,
        .ok "h1"⟩]).skipped_files = [] ∧
    (get_audio_metadata (some ⟨some "Song", some "", some "Al",
      some "1"⟩)).map (·.artist) = some "" ∧
    "/m/a.mp3" ∈ movePlanPaths (analyze_music_directory "/root"
      [⟨"/m/a.mp3", some ⟨some "Song", some "", some "Al", some "1"⟩,
        .ok "h1"⟩]) := by
  refine ⟨by decide, by decide, by decide⟩

/-- C3 (amended): a file whose tags are unreadable or lack the title or
artist *key* is never added to the move plan and appears exactly once in
the skip list, with the metadata-related reason; a file whose artist key is
present with an empty-string value is not skipped. -/
theorem claim_missing_metadata_skipped (root : String)
    (files : List FileInput) (f : FileInput) (hf : f ∈ files)
    (hnd : (files.map (·.path)).Nodup)
    (hmiss : get_audio_metadata f.tags = none) :
    f.path ∉ movePlanPaths (analyze_music_directory root files) ∧
    (analyze_music_directory root files).skipped_files.filter
      (fun r => r.path == f.path) =
      [⟨f.path, "Missing required metadata (title/artist)"⟩] := by
  constructor
  · exact path_not_in_moves root files f hf hnd (fileDigest_meta_none f hmiss)
  · have hsk : (analyze_music_directory root files).skipped_files =
        files.filterMap skipRecOf := by
      have := skipped_fold root files initState
      simpa [initState] using this
    rw [hsk]
    exact filter_skip_unique f files hf hnd hmiss

/-- Witness for the amended C3: a one-file scan where the file has no
parseable tags. -/
theorem claim_missing_metadata_skipped_witness :
    "/m/x.mp3" ∉ movePlanPaths (analyze_music_directory "/root"
      [⟨"/m/x.mp3", none, .ok "h"⟩]) ∧
    (analyze_music_directory "/root"
      [⟨"/m/x.mp3", none, .ok "h"⟩]).skipped_files.filter
      (fun r => r.path == "/m/x.mp3") =
      [⟨"/m/x.mp3", "Missing required metadata (title/artist)"⟩] :=
  claim_missing_metadata_skipped "/root" [⟨"/m/x.mp3", none, .ok "h"⟩]
    ⟨"/m/x.mp3", none, .ok "h"⟩ (by decide) (by decide) (by decide)

/-- C5: for every digest, the first file observed with it (metadata usable,
hashing succeeded) is kept — it is the registered representative and its
path is in the move plan — while every later file with the same digest is
appended, in order, to that digest's duplicate group and never enters the
move plan. -/
theorem claim_dedup_first_kept (root : String) (files : List FileInput)
    (d : String) (x : FileInput) (rest : List FileInput)
    (hnd : (files.map (·.path)).Nodup)
    (hobs : files.filter (hasDigest d) = x :: rest) :
    x.path ∈ movePlanPaths (analyze_music_directory root files) ∧
    alLookup (analyze_music_directory root files).unique_files d =
      some x.path ∧
    dupGroup (analyze_music_directory root files) d = rest.map (·.path) ∧
    ∀ y ∈ rest, y.path ∉ movePlanPaths (analyze_music_directory root files)
    := by
  have hfind : files.find? (hasDigest d) = some x :=
    find?_eq_head_of_filter _ _ _ _ hobs
  refine ⟨?_, ?_, ?_, ?_⟩
  · refine (moves_fold root files initState x.path).mpr (Or.inr ⟨d, rfl, ?_⟩)
    rw [hfind]
    rfl
  · have h2 := unique_fold_absent root files initState d rfl
    rw [hfind] at h2
    exact h2
  · have h3 := dup_fold root files initState d
    rw [hobs] at h3
    simpa [dupGroup, initState, alLookup] using h3
  · intro y hy hx
    have hyf : y ∈ files :=
      List.mem_of_mem_filter (hobs ▸ List.mem_cons_of_mem x hy)
    rcases (moves_fold root files initState y.path).mp hx with
      hx0 | ⟨d', _, hfind'⟩
    · simp [movePlanPaths, initState, movesPaths] at hx0
    · cases hg : files.find? (hasDigest d') with
      | none => rw [hg] at hfind'; exact Option.noConfusion hfind'
      | some g =>
        rw [hg] at hfind'
        have hgp : g.path = y.path := by injection hfind'
        have hgmem : g ∈ files := List.mem_of_find?_eq_some hg
        have hgy : g = y := List.inj_on_of_nodup_map hnd hgmem hyf hgp
        have hyd : hasDigest d y = true :=
          List.of_mem_filter (hobs ▸ List.mem_cons_of_mem x hy)
        have hyd' : hasDigest d' y = true := hgy ▸ List.find?_some hg
        have h1 : fileDigest y = some d := (hasDigest_iff d y).mp hyd
        have h2 : fileDigest y = some d' := (hasDigest_iff d' y).mp hyd'
        have hdd : d' = d := Option.some_inj.mp (h2.symm.trans h1)
        rw [hdd, hfind] at hg
        have hxy : x = y := (Option.some_inj.mp hg).trans hgy
        have hfn : files.Nodup := hnd.of_map
        have hobs_nd : (x :: rest).Nodup :=
          hobs ▸ ((List.filter_sublist files).nodup hfn)
        exact (List.nodup_cons.mp hobs_nd).1 (hxy ▸ hy)

/-- Witness for C5: two byte-identical files followed by a distinct one —
the first is kept in the move plan, the second joins the duplicate group
and stays out of the plan. -/
theorem claim_dedup_first_kept_witness :
    "/m/b1.mp3" ∈ movePlanPaths (analyze_music_directory "/root"
      [⟨"/m/b1.mp3", some ⟨some "T", some "Art", some "Al", some "1"⟩,
        .ok "d1"⟩,
       ⟨"/m/b2.mp3", some ⟨some "T", some "Art", some "Al", some "1"⟩,
        .ok "d1"⟩,
       ⟨"/m/b3.mp3", some ⟨some "U", some "Art", some "Al", some "2"⟩,
        .ok "d2"⟩]) ∧
    alLookup (analyze_music_directory "/root"
      [⟨"/m/b1.mp3", some ⟨some "T", some "Art", some "Al", some "1"⟩,
        .ok "d1"⟩,
       ⟨"/m/b2.mp3", some ⟨some "T", some "Art", some "Al", some "1"⟩,
        .ok "d1"⟩,
       ⟨"/m/b3.mp3", some ⟨some "U", some "Art", some "Al", some "2"⟩,
        .ok "d2"⟩]).unique_files "d1" = some "/m/b1.mp3" ∧
    dupGroup (analyze_music_directory "/root"
      [⟨"/m/b1.mp3", some ⟨some "T", some "Art", some "Al", some "1"⟩,
        .ok "d1"⟩,
       ⟨"/m/b2.mp3", some ⟨some "T", some "Art", some "Al", some "1"⟩,
        .ok "d1"⟩,
       ⟨"/m/b3.mp3", some ⟨some "U", some "Art", some "Al", some "2"⟩,
        .ok "d2"⟩]) "d1" =
      [(⟨"/m/b2.mp3", some ⟨some "T", some "Art", some "Al", some "1"⟩,
        .ok "d1"⟩ : FileInput)].map (·.path) ∧
    ∀ y ∈ [(⟨"/m/b2.mp3", some ⟨some "T", some "Art", some "Al", some "1"⟩,
        .ok "d1"⟩ : FileInput)],
      y.path ∉ movePlanPaths (analyze_music_directory "/root"
      [⟨"/m/b1.mp3", some ⟨some "T", some "Art", some "Al", some "1"⟩,
        .ok "d1"⟩,
       ⟨"/m/b2.mp3", some ⟨some "T", some "Art", some "Al", some "1"⟩,
        .ok "d1"⟩,
       ⟨"/m/b3.mp3", some ⟨some "U", some "Art", some "Al", some "2"⟩,
        .ok "d2"⟩]) :=
  claim_dedup_first_kept "/root"
    [⟨"/m/b1.mp3", some ⟨some "T", some "Art", some "Al", some "1"⟩,
      .ok "d1"⟩,
     ⟨"/m/b2.mp3", some ⟨some "T", some "Art", some "Al", some "1"⟩,
      .ok "d1"⟩,
     ⟨"/m/b3.mp3", some ⟨some "U", some "Art", some "Al", some "2"⟩,
      .ok "d2"⟩] "d1"
    ⟨"/m/b1.mp3", some ⟨some "T", some "Art", some "Al", some "1"⟩, .ok "d1"⟩
    [⟨"/m/b2.mp3", some ⟨some "T", some "Art", some "Al", some "1"⟩,
      .ok "d1"⟩] (by decide) (by decide)

/-- C9: a hashing (or any per-file) error is caught: the file is recorded
in the skip list with a reason tied to the error, it never enters the move
plan, and the scan continues — the files before and after it contribute
their skip records exactly as if it were absent, and the whole pass is a
total function of the file list. -/
theorem claim_hash_error_recoverable (root : String)
    (pre post : List FileInput) (f : FileInput) (md : Metadata) (e : String)
    (hnd : ((pre ++ f :: post).map (·.path)).Nodup)
    (hmd : get_audio_metadata f.tags = some md) (he : f.hash = .err e) :
    (analyze_music_directory root (pre ++ f :: post)).skipped_files =
      pre.filterMap skipRecOf ++
        ⟨f.path, "Error processing file: " ++ e⟩ ::
          post.filterMap skipRecOf ∧
    f.path ∉ movePlanPaths (analyze_music_directory root (pre ++ f :: post))
    := by
  constructor
  · have hs : skipRecOf f = some ⟨f.path, "Error processing file: " ++ e⟩ :=
      by simp [skipRecOf, hmd, he]
    have hsk2 : (analyze_music_directory root
        (pre ++ f :: post)).skipped_files =
        (pre ++ f :: post).filterMap skipRecOf :=
      skipped_fold root (pre ++ f :: post) initState
    have hrest : (pre ++ f :: post).filterMap skipRecOf =
        pre.filterMap skipRecOf ++
          ⟨f.path, "Error processing file: " ++ e⟩ ::
            post.filterMap skipRecOf := by
      rw [List.filterMap_append]
      simp [List.filterMap_cons, hs]
    exact hsk2.trans hrest
  · exact path_not_in_moves root (pre ++ f :: post) f
      (by simp) hnd (fileDigest_hash_err f md e hmd he)

/-- Witness for C9: a scan of one readable file, one unreadable file and a
trailing good file records exactly the unreadable file's error and keeps it
out of the plan. -/
theorem claim_hash_error_recoverable_witness :
    (analyze_music_directory "/root"
      [⟨"/m/g1.mp3", some ⟨some "T", some "A", some "B", some "1"⟩,
        .ok "k1"⟩,
       ⟨"/m/bad.mp3", some ⟨some "T2", some "A", some "B", some "2"⟩,
        .err "Permission denied"⟩,
       ⟨"/m/g2.mp3", some ⟨some "T3", some "A", some "B", some "3"⟩,
        .ok "k2"⟩]).skipped_files =
      [(⟨"/m/g1.mp3", some ⟨some "T", some "A", some "B", some "1"⟩,
        .ok "k1"⟩ : FileInput)].filterMap skipRecOf ++
        ⟨"/m/bad.mp3", "Error processing file: " ++ "Permission denied"⟩ ::
          [(⟨"/m/g2.mp3", some ⟨some "T3", some "A", some "B", some "3"⟩,
            .ok "k2"⟩ : FileInput)].filterMap skipRecOf ∧
    "/m/bad.mp3" ∉ movePlanPaths (analyze_music_directory "/root"
      [⟨"/m/g1.mp3", some ⟨some "T", some "A", some "B", some "1"⟩,
        .ok "k1"⟩,
       ⟨"/m/bad.mp3", some ⟨some "T2", some "A", some "B", some "2"⟩,
        .err "Permission denied"⟩,
       ⟨"/m/g2.mp3", some ⟨some "T3", some "A", some "B", some "3"⟩,
        .ok "k2"⟩]) :=
  claim_hash_error_recoverable "/root"
    [⟨"/m/g1.mp3", some ⟨some "T", some "A", some "B", some "1"⟩, .ok "k1"⟩]
    [⟨"/m/g2.mp3", some ⟨some "T3", some "A", some "B", some "3"⟩,
      .ok "k2"⟩]
    ⟨"/m/bad.mp3", some ⟨some "T2", some "A", some "B", some "2"⟩,
      .err "Permission denied"⟩
    ⟨"A", "B", "T2", "02"⟩ "Permission denied" (by decide) (by decide) rfl

/-! ## The ampersand-the exception, in general

For any single lowercase words `A` and `B`, the artist name `A & the B`
is a fixed point of `normalize_artist_name`: no featuring pattern can match
anywhere in it (the ampersand is protected by the negative lookahead), no
character is stripped, whitespace is already collapsed, and nothing is
trimmed. -/

/-- The lowercase ASCII letters. -/
def lowerChars : List Char := "abcdefghijklmnopqrstuvwxyz".data

theorem lowerChars_not_ws : ∀ c ∈ lowerChars, isWsChar c = false := by decide

theorem lowerChars_word : ∀ c ∈ lowerChars, isWordChar c = true := by decide

theorem lowerChars_lower : ∀ c ∈ lowerChars, pyLower c = c := by decide

theorem lowerChars_plain :
    ∀ c ∈ lowerChars, c ≠ ',' ∧ c ≠ '.' ∧ c ≠ '&' := by decide

theorem tokComma_head (c : Char) (l : List Char) (hc : c ≠ ',') :
    tokComma (c :: l) = none := by
  unfold tokComma
  split <;> simp_all

theorem tokFeat_head (c : Char) (l : List Char) (hc : isWsChar c = false) :
    tokFeat (c :: l) = none := by
  unfold tokFeat
  split <;> simp_all

theorem tokFt_head (c : Char) (l : List Char) (hc : isWsChar c = false) :
    tokFt (c :: l) = none := by
  unfold tokFt
  split <;> simp_all

theorem tokWith_head (c : Char) (l : List Char) (hc : isWsChar c = false) :
    tokWith (c :: l) = none := by
  unfold tokWith
  split <;> simp_all

theorem tokX_head (c : Char) (l : List Char) (hc : isWsChar c = false) :
    tokX (c :: l) = none := by
  unfold tokX
  split <;> simp_all

theorem tokVs_head (c : Char) (l : List Char) (hc : isWsChar c = false) :
    tokVs (c :: l) = none := by
  unfold tokVs
  split <;> simp_all

theorem tokAmp_head (c : Char) (l : List Char) (hc : isWsChar c = false) :
    tokAmp (c :: l) = none := by
  unfold tokAmp
  split <;> simp_all

theorem andTheAt_head (c : Char) (l : List Char) (hc : isWsChar c = false) :
    andTheAt (c :: l) = false := by
  unfold andTheAt
  split <;> simp_all

theorem tokFeat_tail (c : Char) (l : List Char)
    (hl : ∀ x ∈ l, x ∈ lowerChars) : tokFeat (c :: l) = none := by
  unfold tokFeat
  split
  · rename_i c' r heq
    injection heq with h1 h2
    exact absurd (hl '.' (by rw [h2]; simp)) (by decide)
  · rfl

theorem tokFt_tail (c : Char) (l : List Char)
    (hl : ∀ x ∈ l, x ∈ lowerChars) : tokFt (c :: l) = none := by
  unfold tokFt
  split
  · rename_i c' r heq
    injection heq with h1 h2
    exact absurd (hl '.' (by rw [h2]; simp)) (by decide)
  · rfl

theorem tokWith_tail (c : Char) (l : List Char)
    (hl : ∀ x ∈ l, x ∈ lowerChars) : tokWith (c :: l) = none := by
  unfold tokWith
  split
  · rename_i c' d r heq
    injection heq with h1 h2
    have hd : isWsChar d = false :=
      lowerChars_not_ws d (hl d (by rw [h2]; simp))
    simp [hd]
  · rfl

theorem tokX_tail (c : Char) (l : List Char)
    (hl : ∀ x ∈ l, x ∈ lowerChars) : tokX (c :: l) = none := by
  unfold tokX
  split
  · rename_i c' d r heq
    injection heq with h1 h2
    have hd : isWsChar d = false :=
      lowerChars_not_ws d (hl d (by rw [h2]; simp))
    simp [hd]
  · rfl

theorem tokVs_tail (c : Char) (l : List Char)
    (hl : ∀ x ∈ l, x ∈ lowerChars) : tokVs (c :: l) = none := by
  unfold tokVs
  split
  · rename_i c' d r heq
    injection heq with h1 h2
    exact absurd (hl '.' (by rw [h2]; simp)) (by decide)
  · rename_i e r hx heq
    injection heq with h1 h2
    have hd : isWsChar e = false :=
      lowerChars_not_ws e (hl e (by rw [h2]; simp))
    simp [hd]
  · rfl

theorem tokAmp_tail (c : Char) (l : List Char)
    (hl : ∀ x ∈ l, x ∈ lowerChars) : tokAmp (c :: l) = none := by
  unfold tokAmp
  split
  · rename_i c' d r heq
    injection heq with h1 h2
    exact absurd (hl '&' (by rw [h2]; simp)) (by decide)
  · rfl

theorem andTheAt_tail (c : Char) (l : List Char)
    (hl : ∀ x ∈ l, x ∈ lowerChars) : andTheAt (c :: l) = false := by
  unfold andTheAt
  split
  · rename_i c1 c2 c3 r heq
    injection heq with h1 h2
    have hd : isWsChar c2 = false :=
      lowerChars_not_ws c2 (hl c2 (by rw [h2]; simp))
    simp [hd]
  · rfl

theorem suffix_append_cases {α : Type} :
    ∀ (a t b : List α), t <:+ a ++ b →
      t <:+ b ∨ ∃ a', a' <:+ a ∧ a' ≠ [] ∧ t = a' ++ b := by
  intro a
  induction a with
  | nil => intro t b h; exact Or.inl (by simpa using h)
  | cons x a2 ih =>
    intro t b h
    rcases List.suffix_cons_iff.mp (by simpa using h) with rfl | h2
    · exact Or.inr ⟨x :: a2, List.suffix_refl _, by simp, by simp⟩
    · rcases ih t b h2 with hl | ⟨a', ha', hne, rfl⟩
      · exact Or.inl hl
      · exact Or.inr ⟨a', ha'.trans (List.suffix_cons x a2), hne, rfl⟩

/-- The identity case of a featuring-pattern substitution: when the token
matches at no nonempty suffix, the string is returned unchanged. -/
theorem subToEnd_id (tok : List Char → Option (List Char)) :
    ∀ (s : List Char), (∀ t, t ≠ [] → t <:+ s → tok t = none) →
      subToEnd tok s = s := by
  intro s
  induction s with
  | nil => intro _; rfl
  | cons c cs ih =>
    intro h
    have h0 : tok (c :: cs) = none := h _ (by simp) (List.suffix_refl _)
    show subToEnd tok (c :: cs) = c :: cs
    rw [subToEnd, h0, ih (fun t ht hsuf =>
      h t ht (hsuf.trans (List.suffix_cons c cs)))]

/-- The identity case of the `and the` rewrite. -/
theorem rewriteGo_id : ∀ (fuel : Nat) (l : List Char),
    (∀ t, t <:+ l → andTheAt t = false) → rewriteGo fuel l = l := by
  intro fuel
  induction fuel with
  | zero => intro l _; rfl
  | succ fuel ih =>
    intro l h
    cases l with
    | nil => rfl
    | cons c cs =>
      have h0 : andTheAt (c :: cs) = false := h _ (List.suffix_refl _)
      show rewriteGo (fuel + 1) (c :: cs) = c :: cs
      rw [rewriteGo, h0]
      simp only [Bool.false_eq_true, if_false]
      rw [ih cs (fun t hsuf => h t (hsuf.trans (List.suffix_cons c cs)))]

/-- In `A & the B` with single lowercase words `A` and `B`, no featuring
token and no `and the` pattern matches at any position. -/
theorem amp_suffix_toks (p w : List Char)
    (hp : ∀ c ∈ p, c ∈ lowerChars) (hw : ∀ c ∈ w, c ∈ lowerChars) :
    ∀ t, t ≠ [] →
      t <:+ (p ++ ' ' :: '&' :: ' ' :: 't' :: 'h' :: 'e' :: ' ' :: w) →
      tokComma t = none ∧ tokFeat t = none ∧ tokFt t = none ∧
      tokWith t = none ∧ tokX t = none ∧ tokVs t = none ∧
      tokAmp t = none ∧ andTheAt t = false := by
  intro t ht hsuf
  have hhead : ∀ (c : Char) (l : List Char), c ∈ lowerChars →
      tokComma (c :: l) = none ∧ tokFeat (c :: l) = none ∧
      tokFt (c :: l) = none ∧ tokWith (c :: l) = none ∧
      tokX (c :: l) = none ∧ tokVs (c :: l) = none ∧
      tokAmp (c :: l) = none ∧ andTheAt (c :: l) = false := by
    intro c l hc
    have hws : isWsChar c = false := lowerChars_not_ws c hc
    exact ⟨tokComma_head c l (lowerChars_plain c hc).1, tokFeat_head c l hws,
      tokFt_head c l hws, tokWith_head c l hws, tokX_head c l hws,
      tokVs_head c l hws, tokAmp_head c l hws, andTheAt_head c l hws⟩
  rcases suffix_append_cases p t _ hsuf with hmid | ⟨a', ha', hne, rfl⟩
  · rcases List.suffix_cons_iff.mp hmid with rfl | h2
    · exact ⟨rfl, rfl, rfl, rfl, rfl, rfl, rfl, rfl⟩
    rcases List.suffix_cons_iff.mp h2 with rfl | h3
    · exact ⟨rfl, rfl, rfl, rfl, rfl, rfl, rfl, rfl⟩
    rcases List.suffix_cons_iff.mp h3 with rfl | h4
    · exact ⟨rfl, rfl, rfl, rfl, rfl, rfl, rfl, rfl⟩
    rcases List.suffix_cons_iff.mp h4 with rfl | h5
    · exact ⟨rfl, rfl, rfl, rfl, rfl, rfl, rfl, rfl⟩
    rcases List.suffix_cons_iff.mp h5 with rfl | h6
    · exact ⟨rfl, rfl, rfl, rfl, rfl, rfl, rfl, rfl⟩
    rcases List.suffix_cons_iff.mp h6 with rfl | h7
    · exact ⟨rfl, rfl, rfl, rfl, rfl, rfl, rfl, rfl⟩
    rcases List.suffix_cons_iff.mp h7 with rfl | h8
    · -- `t = ' ' :: w`: the patterns would have to reach into the word
      exact ⟨tokComma_head _ _ (by decide), tokFeat_tail _ _ hw,
        tokFt_tail _ _ hw, tokWith_tail _ _ hw, tokX_tail _ _ hw,
        tokVs_tail _ _ hw, tokAmp_tail _ _ hw, andTheAt_tail _ _ hw⟩
    · -- `t` is a nonempty suffix of the word `w`
      cases t with
      | nil => exact absurd rfl ht
      | cons c cs =>
        have hc : c ∈ w := h8.subset (by simp)
        exact hhead c cs (hw c hc)
  · -- `t` starts inside the word `A`
    cases a' with
    | nil => exact absurd rfl hne
    | cons c a'' =>
      have hc : c ∈ p := ha'.subset (by simp)
      exact hhead c _ (hp c hc)

theorem map_pyLower_id : ∀ (l : List Char), (∀ c ∈ l, c ∈ lowerChars) →
    l.map pyLower = l := by
  intro l
  induction l with
  | nil => intro _; rfl
  | cons c cs ih =>
    intro h
    rw [List.map_cons, lowerChars_lower c (h c (by simp)),
      ih (fun x hx => h x (by simp [hx]))]

theorem collapseGo_nonws : ∀ (l : List Char) (b : Bool),
    (∀ c ∈ l, isWsChar c = false) → collapseGo b l = l := by
  intro l
  induction l with
  | nil => intro b _; rfl
  | cons c cs ih =>
    intro b h
    show collapseGo b (c :: cs) = c :: cs
    rw [collapseGo, h c (by simp)]
    simp only [Bool.false_eq_true, if_false]
    rw [ih false (fun x hx => h x (by simp [hx]))]

theorem collapseGo_append_nonws : ∀ (p rest : List Char),
    (∀ c ∈ p, isWsChar c = false) →
    collapseGo false (p ++ rest) = p ++ collapseGo false rest := by
  intro p
  induction p with
  | nil => intro rest _; rfl
  | cons c cs ih =>
    intro rest h
    show collapseGo false (c :: (cs ++ rest)) = _
    rw [collapseGo, h c (by simp)]
    simp only [Bool.false_eq_true, if_false]
    rw [ih rest (fun x hx => h x (by simp [hx]))]
    rfl

theorem trimWs_sandwich (c1 c2 : Char) (l : List Char)
    (h1 : isWsChar c1 = false) (h2 : isWsChar c2 = false) :
    trimWs (c1 :: (l ++ [c2])) = c1 :: (l ++ [c2]) := by
  unfold trimWs
  rw [List.dropWhile_cons, h1]
  simp only [Bool.false_eq_true, if_false]
  rw [show c1 :: (l ++ [c2]) = (c1 :: l) ++ [c2] by simp,
    List.reverse_append]
  show (List.dropWhile isWsChar (c2 :: (c1 :: l).reverse)).reverse = _
  rw [List.dropWhile_cons, h2]
  simp only [Bool.false_eq_true, if_false]
  rw [show c2 :: (c1 :: l).reverse = ((c1 :: l) ++ [c2]).reverse by
    rw [List.reverse_append]; rfl]
  rw [List.reverse_reverse]

/-- C8 in general: for nonempty lowercase words `A` and `B`, the artist
name `A & the B` is a fixed point of `normalize_artist_name`. -/
theorem normalize_amp_the_fixed (p w : List Char) (hp0 : p ≠ [])
    (hw0 : w ≠ []) (hp : ∀ c ∈ p, c ∈ lowerChars)
    (hw : ∀ c ∈ w, c ∈ lowerChars) :
    normalize_artist_name
      ⟨p ++ ' ' :: '&' :: ' ' :: 't' :: 'h' :: 'e' :: ' ' :: w⟩ =
      ⟨p ++ ' ' :: '&' :: ' ' :: 't' :: 'h' :: 'e' :: ' ' :: w⟩ := by
  have htoks := amp_suffix_toks p w hp hw
  have hlow : (p ++ ' ' :: '&' :: ' ' :: 't' :: 'h' :: 'e' :: ' ' :: w).map
      pyLower = p ++ ' ' :: '&' :: ' ' :: 't' :: 'h' :: 'e' :: ' ' :: w := by
    rw [List.map_append, map_pyLower_id p hp]
    simp only [List.map_cons]
    rw [show pyLower ' ' = ' ' by decide, show pyLower '&' = '&' by decide,
      show pyLower 't' = 't' by decide, show pyLower 'h' = 'h' by decide,
      show pyLower 'e' = 'e' by decide, map_pyLower_id w hw]
  have hfil : (p ++ ' ' :: '&' :: ' ' :: 't' :: 'h' :: 'e' :: ' ' :: w).filter
      (fun c => isWordChar c || isWsChar c || c == '&') =
      p ++ ' ' :: '&' :: ' ' :: 't' :: 'h' :: 'e' :: ' ' :: w := by
    rw [List.filter_eq_self]
    intro c hc
    rcases List.mem_append.mp hc with hcp | hcm
    · simp [lowerChars_word c (hp c hcp)]
    · simp only [List.mem_cons] at hcm
      rcases hcm with rfl | rfl | rfl | rfl | rfl | rfl | rfl | hcw
      · decide
      · decide
      · decide
      · decide
      · decide
      · decide
      · decide
      · simp [lowerChars_word c (hw c hcw)]
  have hcol : collapseWs
      (p ++ ' ' :: '&' :: ' ' :: 't' :: 'h' :: 'e' :: ' ' :: w) =
      p ++ ' ' :: '&' :: ' ' :: 't' :: 'h' :: 'e' :: ' ' :: w := by
    unfold collapseWs
    rw [collapseGo_append_nonws p _
      (fun c hc => lowerChars_not_ws c (hp c hc))]
    have hgo : collapseGo false
        (' ' :: '&' :: ' ' :: 't' :: 'h' :: 'e' :: ' ' :: w) =
        ' ' :: '&' :: ' ' :: 't' :: 'h' :: 'e' :: ' ' ::
          collapseGo true w := by
      rw [collapseGo, show isWsChar ' ' = true by decide]
      simp only [if_true]
      rw [collapseGo, show isWsChar '&' = false by decide]
      simp only [Bool.false_eq_true, if_false]
      rw [collapseGo, show isWsChar ' ' = true by decide]
      simp only [if_true]
      rw [collapseGo, show isWsChar 't' = false by decide]
      simp only [Bool.false_eq_true, if_false]
      rw [collapseGo, show isWsChar 'h' = false by decide]
      simp only [Bool.false_eq_true, if_false]
      rw [collapseGo, show isWsChar 'e' = false by decide]
      simp only [Bool.false_eq_true, if_false]
      rw [collapseGo, show isWsChar ' ' = true by decide]
      simp only [if_true]
      simp only [Bool.false_eq_true, if_false]
    rw [hgo, collapseGo_nonws w true
      (fun c hc => lowerChars_not_ws c (hw c hc))]
  have hrw : rewriteAndThe
      (p ++ ' ' :: '&' :: ' ' :: 't' :: 'h' :: 'e' :: ' ' :: w) =
      p ++ ' ' :: '&' :: ' ' :: 't' :: 'h' :: 'e' :: ' ' :: w := by
    unfold rewriteAndThe
    refine rewriteGo_id _ _ (fun t hs => ?_)
    cases t with
    | nil => rfl
    | cons c cs => exact (htoks (c :: cs) (by simp) hs).2.2.2.2.2.2.2
  have htrim : trimWs
      (p ++ ' ' :: '&' :: ' ' :: 't' :: 'h' :: 'e' :: ' ' :: w) =
      p ++ ' ' :: '&' :: ' ' :: 't' :: 'h' :: 'e' :: ' ' :: w := by
    obtain ⟨cp, p', rfl⟩ : ∃ cp p', p = cp :: p' := by
      cases p with
      | nil => exact absurd rfl hp0
      | cons cp p' => exact ⟨cp, p', rfl⟩
    obtain ⟨w', cw, rfl⟩ : ∃ w' cw, w = w' ++ [cw] := by
      rcases List.eq_nil_or_concat w with rfl | ⟨w', cw, hcon⟩
      · exact absurd rfl hw0
      · exact ⟨w', cw, by rw [hcon, List.concat_eq_append]⟩
    have hshape : (cp :: p') ++ ' ' :: '&' :: ' ' :: 't' :: 'h' :: 'e' ::
        ' ' :: (w' ++ [cw]) =
        cp :: ((p' ++ ' ' :: '&' :: ' ' :: 't' :: 'h' :: 'e' :: ' ' :: w')
          ++ [cw]) := by
      simp
    rw [hshape, trimWs_sandwich cp cw _
      (lowerChars_not_ws cp (hp cp (by simp)))
      (lowerChars_not_ws cw (hw cw (by simp)))]
  have hlist : trimWs (rewriteAndThe (collapseWs (List.filter
      (fun c => isWordChar c || isWsChar c || c == '&')
      (subToEnd tokAmp (subToEnd tokVs (subToEnd tokX (subToEnd tokWith
        (subToEnd tokFt (subToEnd tokFeat (subToEnd tokComma
          ((p ++ ' ' :: '&' :: ' ' :: 't' :: 'h' :: 'e' :: ' ' :: w).map
            pyLower))))))))))) =
      p ++ ' ' :: '&' :: ' ' :: 't' :: 'h' :: 'e' :: ' ' :: w := by
    rw [hlow,
      subToEnd_id tokComma _ (fun t ht hs => (htoks t ht hs).1),
      subToEnd_id tokFeat _ (fun t ht hs => (htoks t ht hs).2.1),
      subToEnd_id tokFt _ (fun t ht hs => (htoks t ht hs).2.2.1),
      subToEnd_id tokWith _ (fun t ht hs => (htoks t ht hs).2.2.2.1),
      subToEnd_id tokX _ (fun t ht hs => (htoks t ht hs).2.2.2.2.1),
      subToEnd_id tokVs _ (fun t ht hs => (htoks t ht hs).2.2.2.2.2.1),
      subToEnd_id tokAmp _ (fun t ht hs => (htoks t ht hs).2.2.2.2.2.2.1),
      hfil, hcol, hrw, htrim]
  exact congrArg String.mk hlist

/-! ## Claim theorems: the ampersand-the exception -/

/-- C8: an artist name of the form `A & The B` survives normalization — for
any nonempty lowercase words `A` and `B`, `A & the B` is a fixed point of
`normalize_artist_name` (the ampersand clause is not stripped, and the
`& the` part with the following word survives); concretely
`Florence & The Machine` normalizes to `florence & the machine`, which
still contains `& the machine`, and `Echo & The Bunnymen` is likewise
preserved. -/
theorem claim_ampersand_the_preserved :
    (∀ p w : List Char, p ≠ [] → w ≠ [] →
      (∀ c ∈ p, c ∈ lowerChars) → (∀ c ∈ w, c ∈ lowerChars) →
      normalize_artist_name
        ⟨p ++ ' ' :: '&' :: ' ' :: 't' :: 'h' :: 'e' :: ' ' :: w⟩ =
        ⟨p ++ ' ' :: '&' :: ' ' :: 't' :: 'h' :: 'e' :: ' ' :: w⟩) ∧
    normalize_artist_name "Florence & The Machine" =
      "florence & the machine" ∧
    (∃ p q, normalize_artist_name "Florence & The Machine" =
      p ++ "& the machine" ++ q) ∧
    normalize_artist_name "Echo & The Bunnymen" = "echo & the bunnymen" := by
  exact ⟨normalize_amp_the_fixed, by decide,
    ⟨"florence ", "", by decide⟩, by decide⟩

/-- Witness for C8 at the words `florence` and `machine`. -/
theorem claim_ampersand_the_preserved_witness :
    normalize_artist_name ⟨"florence".data ++ ' ' :: '&' :: ' ' :: 't' ::
      'h' :: 'e' :: ' ' :: "machine".data⟩ =
      ⟨"florence".data ++ ' ' :: '&' :: ' ' :: 't' :: 'h' :: 'e' :: ' ' ::
        "machine".data⟩ :=
  claim_ampersand_the_preserved.1 "florence".data "machine".data
    (by decide) (by decide) (by decide) (by decide)

end MusicCleanup
